import Mathlib

/-!
# The Snapcast output plugin of MPD, archive lookup, the playlist vector

A shallow embedding of `src/output/plugins/snapcast/SnapcastOutputPlugin.cxx`
(namespace `Snapcast`), of `src/fs/LookupFile.cxx` (namespace `Fs`) and of
`src/db/PlaylistVector.cxx` (namespace `Db`).

The output object is a record; every method is a function from the record to
the record after the call, together with what the call returned or how it
ended.  The collaborators whose code lives in other files (the pacing timer,
the encoder, the JSON serializer) are parameters: a carrier type and the
operations the plugin calls on it.  Client sessions (`SnapcastClient`) are
known to the plugin only through the three methods it calls on them, so the
record keeps the list of sessions and, next to it, the chronological list of
the calls made on them.
-/

namespace Snapcast

/-! ## Data model -/

/-- A byte sequence (`std::span<const std::byte>`, `AllocatedArray<std::byte>`):
the list of its byte values. -/
abbrev Bytes := List Nat

/-- A duration of `std::chrono::steady_clock`, counted in nanoseconds. -/
abbrev Duration := Int

/-- The value of `std::chrono::seconds(n)` as a steady-clock duration. -/
def seconds (n : Int) : Duration := n * 1000000000

/-- A reading of `std::chrono::steady_clock::now()`. -/
abbrev TimePoint := Nat

/-- The audio format handed to `Open`; the plugin only forwards it. -/
structure AudioFormat where
  sample_rate : Nat
  format : Nat
  channels : Nat
deriving DecidableEq, Repr

/-- One encoded payload with the clock value of the `Play` call that made it
(`SnapcastChunk`, built at line 317 from `now` and the bytes just read). -/
structure SnapcastChunk where
  time : TimePoint
  payload : Bytes
deriving DecidableEq, Repr

/-- A client session is identified by the socket descriptor it was created
from (`new SnapcastClient(*this, std::move(fd))`). -/
abbrev ClientId := Nat

/-- The methods of `SnapcastClient` that the output calls. -/
inductive ClientCall where
  | Push (chunk : SnapcastChunk)
  | Cancel
  | SendStreamTags (payload : Bytes)
deriving DecidableEq, Repr

/-- The methods of `Encoder` that `Play` calls, as they appear in the record
of calls: the bytes written, a flush, a read with the capacity of the buffer
offered. -/
inductive EncoderCall where
  | Write (src : Bytes)
  | Flush
  | Read (capacity : Nat)
deriving DecidableEq, Repr

/-- How a call ended. -/
inductive Outcome (α : Type) where
  | returned (value : α)
  | threw
  | assertion_failed
  | invalid_pointer
  | out_of_fuel
deriving DecidableEq, Repr

/-- The end of a call that goes on, after a part that ended as `o`, to return
`v`: it returns `v` if that part returned, and ends as the part did if not. -/
def Outcome.returning {α β : Type} (o : Outcome α) (v : β) : Outcome β :=
  match o with
  | .returned _ => .returned v
  | .threw => .threw
  | .assertion_failed => .assertion_failed
  | .invalid_pointer => .invalid_pointer
  | .out_of_fuel => .out_of_fuel

/-- The pacing timer (`Timer`, output/Timer.hxx) as the plugin uses it:
`new Timer(audio_format)`, `IsStarted`, `Start`, `Add`, `Reset`, `GetDelay`.
A value of `T` is the timer object together with the clock it reads. -/
structure TimerOps (T : Type) where
  create : AudioFormat → T
  IsStarted : T → Bool
  Start : T → T
  Add : T → Nat → T
  Reset : T → T
  GetDelay : T → Duration

/-- The encoder (`PreparedEncoder::Open`, `Encoder::Write`, `Flush`, `Read`)
as the plugin uses it.  `Open` may throw (`none`) and may adjust the audio
format it is given by reference; `Write` and `Flush` may throw, which is the
`false` in their result, next to the encoder after the call; `Read` is
`noexcept` and returns the bytes it put in the buffer of the given capacity. -/
structure EncoderOps (E : Type) where
  Open : AudioFormat → Option (E × AudioFormat)
  Write : E → Bytes → Bool × E
  Flush : E → Bool × E
  Read : E → Nat → Bytes × E

/-- The members of `SnapcastOutput` that the methods below read and write.
`timer` and `encoder` are raw pointers in the source: `none` is a pointer that
does not point to a live object (never assigned, or deleted by `Close`).
`inject_event` is true while the wake-up of the event loop is scheduled.
`client_calls` and `encoder_calls` record, oldest first, the calls made on
the client sessions and on the encoder. -/
structure SnapcastOutput (T E : Type) where
  open_ : Bool
  pause : Bool
  listening : Bool
  zeroconf_port : Nat
  zeroconf_helper : Bool
  encoder : Option E
  codec_header : Bytes
  unflushed_input : Nat
  timer : Option T
  chunks : List SnapcastChunk
  clients : List ClientId
  inject_event : Bool
  client_calls : List (ClientId × ClientCall)
  encoder_calls : List EncoderCall

/-- The calls in a record that were made on the session `c`, oldest first. -/
def callsOn (c : ClientId) (calls : List (ClientId × ClientCall)) : List ClientCall :=
  (calls.filter (fun e => e.1 == c)).map (fun e => e.2)

/-! ## Construction, Bind, Unbind, OnAccept (lines 33-108) -/

/-- Modelled from the spec: the member declarations and their initialisers are
in Internal.hxx, which is not among the sources.  The constructor (lines
33-50) only computes the port; the spec's invariants (section 3) make a fresh
output closed, with no header, no clients and no chunks. -/
def construct (T E : Type) (port : Nat) (zeroconf : Bool) : SnapcastOutput T E :=
  { open_ := false
    pause := false
    listening := false
    zeroconf_port := if zeroconf then port else 0
    zeroconf_helper := false
    encoder := none
    codec_header := []
    unflushed_input := 0
    timer := none
    chunks := []
    clients := []
    inject_event := false
    client_calls := []
    encoder_calls := [] }

/-- Method `SnapcastOutput::Bind` (lines 54-69).  `socket_ok = false` is
`ServerSocket::Open()` throwing, which `BlockingCall` passes on. -/
def Bind {T E : Type} (socket_ok : Bool) (s : SnapcastOutput T E) :
    Outcome Unit × SnapcastOutput T E :=
  let s := { s with open_ := false }
  if socket_ok then
    (.returned (), { s with listening := true
                            zeroconf_helper := s.zeroconf_helper || decide (0 < s.zeroconf_port) })
  else
    (.threw, s)

/-- Method `SnapcastOutput::Unbind` (lines 71-83). -/
def Unbind {T E : Type} (s : SnapcastOutput T E) : Outcome Unit × SnapcastOutput T E :=
  if s.open_ then (.assertion_failed, s)
  else (.returned (), { s with zeroconf_helper := false, listening := false })

/-- Method `SnapcastOutput::AddClient` (lines 89-94): the new session goes to the
front of the list. -/
def AddClient {T E : Type} (fd : ClientId) (s : SnapcastOutput T E) : SnapcastOutput T E :=
  { s with clients := fd :: s.clients }

/-- Method `SnapcastOutput::OnAccept` (lines 96-108). -/
def OnAccept {T E : Type} (fd : ClientId) (s : SnapcastOutput T E) : SnapcastOutput T E :=
  if s.open_ then AddClient fd s else s

/-! ## Open and Close (lines 110-164) -/

/-- Function `ReadEncoder` (lines 110-116): one read into a buffer of 4096 bytes. -/
def ReadEncoder {E : Type} (enc : EncoderOps E) (e : E) : Bytes × E :=
  enc.Read e 4096

/-- Modelled from the spec: the wave encoder the constructor prepares (line
40, encoder/plugins/WaveEncoderPlugin.cxx) is not among the sources.  Section
4.1: after `open`, a one-shot `read` yields the codec header, the bytes the
encoder emits before any audio input is written; for WAV that is the RIFF
prelude, so the first read after `Open` is not empty. -/
def HeaderFirst {E : Type} (enc : EncoderOps E) : Prop :=
  ∀ af e af', enc.Open af = some (e, af') → (ReadEncoder enc e).1 ≠ []

/-- Method `SnapcastOutput::Open` with `OpenEncoder` inlined (lines 118-143). -/
def Open {T E : Type} (tm : TimerOps T) (enc : EncoderOps E) (audio_format : AudioFormat)
    (s : SnapcastOutput T E) : Outcome Unit × SnapcastOutput T E :=
  if s.open_ then (.assertion_failed, s)
  else if !s.clients.isEmpty then (.assertion_failed, s)
  else
    match enc.Open audio_format with
    | none => (.threw, s)
    | some (e, audio_format) =>
      let r := ReadEncoder enc e
      (.returned (),
        { s with encoder := some r.2
                 codec_header := r.1
                 unflushed_input := 0
                 timer := some (tm.create audio_format)
                 open_ := true
                 pause := false })

/-- Method `SnapcastOutput::Close` (lines 145-164). -/
def Close {T E : Type} (s : SnapcastOutput T E) : Outcome Unit × SnapcastOutput T E :=
  if !s.open_ then (.assertion_failed, s)
  else
    (.returned (),
      { s with timer := none
               inject_event := false
               open_ := false
               clients := []
               chunks := []
               codec_header := []
               encoder := none })

/-! ## OnInject, RemoveClient, Delay (lines 166-210) -/

/-- The loop of `OnInject` (lines 171-177), by recursion on the content of
the queue: pop the front chunk, push it to every client in list order. -/
def OnInject.loop {T E : Type} : List SnapcastChunk → SnapcastOutput T E → SnapcastOutput T E
  | [], s => { s with chunks := [] }
  | chunk :: rest, s =>
    OnInject.loop rest
      { s with chunks := rest
               client_calls := s.client_calls ++ s.clients.map (fun c => (c, ClientCall.Push chunk)) }

/-- Method `SnapcastOutput::OnInject` (lines 166-178). -/
def OnInject {T E : Type} (s : SnapcastOutput T E) : SnapcastOutput T E :=
  OnInject.loop s.chunks s

/-- Method `SnapcastOutput::RemoveClient` (lines 180-190).  The argument is a
reference to a session in the list; unlinking one that is not is undefined. -/
def RemoveClient {T E : Type} (client : ClientId) (s : SnapcastOutput T E) :
    Outcome Unit × SnapcastOutput T E :=
  if s.clients.isEmpty then (.assertion_failed, s)
  else if client ∈ s.clients then (.returned (), { s with clients := s.clients.erase client })
  else (.invalid_pointer, s)

/-- Method `SnapcastOutput::Delay` (lines 192-210).  The method is `const`, the
timer it resets is reached through the pointer. -/
def Delay {T E : Type} (tm : TimerOps T) (s : SnapcastOutput T E) :
    Outcome Duration × SnapcastOutput T E :=
  match s.timer with
  | none => (.invalid_pointer, s)
  | some t =>
    if s.pause then
      (.returned (seconds 1), { s with timer := some (tm.Reset t) })
    else
      (.returned (if tm.IsStarted t then tm.GetDelay t else 0), s)

/-! ## Tags and their JSON projection (lines 212-272) -/

/-- Modelled from the spec: `TagType` is declared in tag/Type.h, which is not
among the sources.  The four kinds of the table, the composer of the spec's
scenario S6, and every other kind by its number. -/
inductive TagType where
  | TAG_ARTIST
  | TAG_ALBUM
  | TAG_TITLE
  | TAG_COMPOSER
  | TAG_MUSICBRAINZ_TRACKID
  | other (code : Nat)
deriving DecidableEq, Repr

/-- One item of a tag: a kind and its value. -/
structure TagItem where
  type : TagType
  value : String
deriving DecidableEq, Repr

/-- Modelled from the spec: `Tag` is declared in tag/Tag.hxx, which is not
among the sources.  A tag is the sequence of its items. -/
abbrev Tag := List TagItem

/-- Modelled from the spec: `Tag::GetValue` (tag/Tag.cxx, not among the
sources) is the value the tag carries for a kind, `none` standing for the
null pointer; with several items of one kind it is the first. -/
def Tag.GetValue (tag : Tag) (type : TagType) : Option String :=
  (tag.find? (fun item => item.type == type)).map (fun item => item.value)

/-- A JSON object all of whose fields are strings, as `nlohmann::json` keeps
it: a `std::map`, that is, the fields in increasing order of their keys. -/
abbrev JsonObject := List (String × String)

/-- The order of `std::string` keys in the map: lexicographic, a proper prefix
first.  Bytes of UTF-8 compare as the code points they encode. -/
def keyLess : List Char → List Char → Bool
  | _, [] => false
  | [], _ :: _ => true
  | a :: as, b :: bs => decide (a.toNat < b.toNat) || (a.toNat == b.toNat && keyLess as bs)

/-- The call `json.emplace(name, value)` on an object: the field is inserted
at its place in key order unless the key is already present. -/
def JsonObject.emplace : JsonObject → String → String → JsonObject
  | [], name, value => [(name, value)]
  | (k, v) :: rest, name, value =>
    if keyLess name.data k.data then (name, value) :: (k, v) :: rest
    else if name = k then (k, v) :: rest
    else (k, v) :: JsonObject.emplace rest name value

/-- The table `snapcast_tags` (lines 214-224). -/
def snapcast_tags : List (TagType × String) :=
  [ (.TAG_ARTIST, "artist"),
    (.TAG_ALBUM, "album"),
    (.TAG_TITLE, "track"),
    (.TAG_MUSICBRAINZ_TRACKID, "musicbrainzid") ]

/-- Function `TranslateTagType` (lines 226-237): the object after the call and the
boolean returned. -/
def TranslateTagType (json : JsonObject) (tag : Tag) (type : TagType) (name : String) :
    JsonObject × Bool :=
  match tag.GetValue type with
  | none => (json, false)
  | some value => (json.emplace name value, true)

/-- Function `ToJson` (lines 239-248). -/
def ToJson (tag : Tag) : JsonObject :=
  snapcast_tags.foldl (fun json entry => (TranslateTagType json tag entry.1 entry.2).1) []

/-- Function `LockHasClients` (Internal.hxx): `!clients.empty()` under the mutex. -/
def LockHasClients {T E : Type} (s : SnapcastOutput T E) : Bool :=
  !s.clients.isEmpty

/-- Method `SnapcastOutput::SendTag` (lines 252-272).  `have_json` is the build
option `HAVE_NLOHMANN_JSON`; `dump` is `nlohmann::json::dump` followed by
`AsBytes`. -/
def SendTag {T E : Type} (have_json : Bool) (dump : JsonObject → Bytes) (tag : Tag)
    (s : SnapcastOutput T E) : SnapcastOutput T E :=
  if have_json then
    if !LockHasClients s then s
    else
      let json := ToJson tag
      if json.isEmpty then s
      else
        let payload := dump json
        { s with client_calls :=
                   s.client_calls ++ s.clients.map (fun c => (c, ClientCall.SendStreamTags payload)) }
  else s

/-! ## Play, Pause, Cancel (lines 274-356) -/

/-- The loop of `Play` (lines 304-318) on the encoder `e` the pointer refers
to.  The loop ends at the first empty read; `fuel` bounds the number of reads
the model follows. -/
def Play.loop {T E : Type} (enc : EncoderOps E) (now : TimePoint) :
    Nat → E → SnapcastOutput T E → Outcome Unit × SnapcastOutput T E
  | 0, e, s => (.out_of_fuel, { s with encoder := some e })
  | fuel + 1, e, s =>
    let r := enc.Read e 32768
    let s := { s with encoder := some r.2
                      encoder_calls := s.encoder_calls ++ [EncoderCall.Read 32768] }
    if r.1.isEmpty then (.returned (), s)
    else
      let s := { s with unflushed_input := 0 }
      let s := if s.chunks.isEmpty then { s with inject_event := true } else s
      Play.loop enc now fuel r.2 { s with chunks := s.chunks ++ [{ time := now, payload := r.1 }] }

/-- Method `SnapcastOutput::Play` (lines 274-321).  `now` is the clock value
read at line 279.  `unflushed_input` is a `size_t`; the counter is put back to
zero as soon as it reaches 65536 and `src` is a span of memory, so the sum at
line 289 stays far inside the range of `size_t` and is taken in the natural
numbers. -/
def Play {T E : Type} (tm : TimerOps T) (enc : EncoderOps E) (fuel : Nat) (now : TimePoint)
    (src : Bytes) (s : SnapcastOutput T E) : Outcome Nat × SnapcastOutput T E :=
  let s := { s with pause := false }
  match s.timer with
  | none => (.invalid_pointer, s)
  | some t =>
    let t := if !tm.IsStarted t then tm.Start t else t
    let s := { s with timer := some (tm.Add t src.length) }
    if !LockHasClients s then (.returned src.length, s)
    else
      match s.encoder with
      | none => (.invalid_pointer, s)
      | some e =>
        let w := enc.Write e src
        let s := { s with encoder := some w.2
                          encoder_calls := s.encoder_calls ++ [EncoderCall.Write src] }
        if !w.1 then (.threw, s)
        else
          let s := { s with unflushed_input := s.unflushed_input + src.length }
          let f := if s.unflushed_input ≥ 65536 then (enc.Flush w.2).2 else w.2
          let s := if s.unflushed_input ≥ 65536 then
                     { s with encoder := some f
                              encoder_calls := s.encoder_calls ++ [EncoderCall.Flush]
                              unflushed_input := 0 }
                   else s
          let r := Play.loop enc now fuel f s
          (r.1.returning src.length, r.2)

/-- Method `SnapcastOutput::Pause` (lines 323-329). -/
def Pause {T E : Type} (s : SnapcastOutput T E) : Bool × SnapcastOutput T E :=
  (true, { s with pause := true })

/-- Method `SnapcastOutput::Cancel` (lines 347-356). -/
def Cancel {T E : Type} (s : SnapcastOutput T E) : SnapcastOutput T E :=
  { s with chunks := []
           client_calls := s.client_calls ++ s.clients.map (fun c => (c, ClientCall.Cancel)) }

/-! ## Sequences of calls -/

/-- The collaborators of one output. -/
structure Deps (T E : Type) where
  timer : TimerOps T
  encoder : EncoderOps E
  have_json : Bool
  dump : JsonObject → Bytes

/-- One call on the output, with its arguments and, where the source does not
fix them, the inputs it reads from outside (whether the listener socket could
be opened, the clock value, the bound on the reads followed). -/
inductive Op where
  | Bind (socket_ok : Bool)
  | Unbind
  | OnAccept (fd : ClientId)
  | Open (audio_format : AudioFormat)
  | Close
  | OnInject
  | RemoveClient (client : ClientId)
  | Delay
  | SendTag (tag : Tag)
  | Play (fuel : Nat) (now : TimePoint) (src : Bytes)
  | Pause
  | Cancel
deriving DecidableEq, Repr

/-- A call completed when it returned or left by an exception; a failed
assertion, a dead pointer or an endless loop leaves no state to go on from. -/
def Outcome.completed {α : Type} : Outcome α → Bool
  | .returned _ => true
  | .threw => true
  | _ => false

/-- The state a completed call leaves. -/
def after {α T E : Type} (r : Outcome α × SnapcastOutput T E) : Option (SnapcastOutput T E) :=
  if r.1.completed then some r.2 else none

/-- The state after one call, if the call completes. -/
def step {T E : Type} (d : Deps T E) (op : Op) (s : SnapcastOutput T E) :
    Option (SnapcastOutput T E) :=
  match op with
  | .Bind socket_ok => after (Bind socket_ok s)
  | .Unbind => after (Unbind s)
  | .OnAccept fd => some (OnAccept fd s)
  | .Open audio_format => after (Open d.timer d.encoder audio_format s)
  | .Close => after (Close s)
  | .OnInject => some (OnInject s)
  | .RemoveClient client => after (RemoveClient client s)
  | .Delay => after (Delay d.timer s)
  | .SendTag tag => some (SendTag d.have_json d.dump tag s)
  | .Play fuel now src => after (Play d.timer d.encoder fuel now src s)
  | .Pause => some (Pause s).2
  | .Cancel => some (Cancel s)

/-- The state after a sequence of calls, each one admitted by `allowed` in the
state it is made in, and each one completing. -/
def runWith {T E : Type} (d : Deps T E) (allowed : Op → SnapcastOutput T E → Bool) :
    List Op → SnapcastOutput T E → Option (SnapcastOutput T E)
  | [], s => some s
  | op :: ops, s =>
    if allowed op s then
      match step d op s with
      | none => none
      | some s => runWith d allowed ops s
    else none

/-- The state after a sequence of calls, each one completing. -/
def run {T E : Type} (d : Deps T E) (ops : List Op) (s : SnapcastOutput T E) :
    Option (SnapcastOutput T E) :=
  runWith d (fun _ _ => true) ops s

/-- The calls the output driver makes besides the asserted preconditions:
it enables an output (`Bind`) only while the output is not open. -/
def bindWhileClosed {T E : Type} (op : Op) (s : SnapcastOutput T E) : Bool :=
  match op with
  | .Bind _ => !s.open_
  | _ => true

/-- The sequences of `Open` and `Close` only. -/
def openOrClose {T E : Type} (op : Op) (_ : SnapcastOutput T E) : Bool :=
  match op with
  | .Open _ => true
  | .Close => true
  | _ => false

/-- The calls other than `Play` and `Open`. -/
def neitherPlayNorOpen {T E : Type} (op : Op) (_ : SnapcastOutput T E) : Bool :=
  match op with
  | .Play _ _ _ => false
  | .Open _ => false
  | _ => true

/-! ## Stand-ins for the collaborators, for concrete runs -/

/-- A timer for concrete runs: whether it is started and the bytes added
since.  Its delay is one nanosecond for each byte. -/
structure ByteTimer where
  started : Bool
  bytes : Nat
deriving DecidableEq, Repr

/-- The operations of `ByteTimer`. -/
def byteTimer : TimerOps ByteTimer :=
  { create := fun _ => { started := false, bytes := 0 }
    IsStarted := fun t => t.started
    Start := fun _ => { started := true, bytes := 0 }
    Add := fun t n => { t with bytes := t.bytes + n }
    Reset := fun _ => { started := false, bytes := 0 }
    GetDelay := fun t => (t.bytes : Int) }

/-- An encoder for concrete runs: its state is the output not yet read.  It
starts with a header of four bytes and passes on what it is given. -/
def passEncoder : EncoderOps Bytes :=
  { Open := fun audio_format => some ([82, 73, 70, 70], audio_format)
    Write := fun e src => (true, e ++ src)
    Flush := fun e => (true, e)
    Read := fun e capacity => (e.take capacity, e.drop capacity) }

/-- An encoder for concrete runs whose `Write` always throws. -/
def brokenEncoder : EncoderOps Bytes :=
  { passEncoder with Write := fun e _ => (false, e) }

/-- A serializer for concrete runs: the character codes of each key and each
value, each followed by a zero. -/
def plainDump (json : JsonObject) : Bytes :=
  json.flatMap (fun kv => kv.1.data.map Char.toNat ++ [0] ++ kv.2.data.map Char.toNat ++ [0])

/-- The stand-ins together. -/
def demo : Deps ByteTimer Bytes :=
  { timer := byteTimer, encoder := passEncoder, have_json := true, dump := plainDump }

/-- An open output with the given clients and queue, for concrete runs. -/
def sample (clients : List ClientId) (chunks : List SnapcastChunk) : SnapcastOutput ByteTimer Bytes :=
  { construct ByteTimer Bytes 1704 true with
    open_ := true
    listening := true
    zeroconf_helper := true
    encoder := some []
    codec_header := [82, 73, 70, 70]
    timer := some { started := false, bytes := 0 }
    chunks := chunks
    clients := clients }

/-! ## The reads of `Play`, after the words of the specification -/

/-- The reads the specification describes for `Play`: starting from the
encoder `e`, read up to 32768 bytes again and again; `payloads` are the bytes
of the non-empty reads in the order they were made, the read after them is the
first empty one, and `e'` is the encoder after it. -/
inductive ReadsUntilEmpty {E : Type} (enc : EncoderOps E) : E → List Bytes → E → Prop where
  | stop (e : E) : (enc.Read e 32768).1 = [] →
      ReadsUntilEmpty enc e [] (enc.Read e 32768).2
  | read (e : E) (payloads : List Bytes) (e' : E) : (enc.Read e 32768).1 ≠ [] →
      ReadsUntilEmpty enc (enc.Read e 32768).2 payloads e' →
      ReadsUntilEmpty enc e ((enc.Read e 32768).1 :: payloads) e'

/-! ## An encoder whose flush fails -/

/-- The encoder `enc` with a `Flush` that does what `enc.Flush` does to the
encoder and then throws. -/
def failingFlush {E : Type} (enc : EncoderOps E) : EncoderOps E :=
  { enc with Flush := fun e => (false, (enc.Flush e).2) }

end Snapcast

/-! # Archive lookup: `src/fs/LookupFile.cxx` -/

namespace Fs

/-! ## Paths and the file system -/

/-- What the constructor of `FileInfo` (one `stat` of a path) finds: the path
does not exist (`std::system_error` for which `IsPathNotFound` holds), a
regular file, a file of another kind, or a failure of another sort
(`std::system_error` for which `IsPathNotFound` does not hold). -/
inductive StatResult where
  | not_found
  | regular
  | other_kind
  | failed
deriving DecidableEq, Repr

/-- A file system state: what a `stat` of each path finds. -/
abbrev FileSystem := List Char → StatResult

/-- The character that ends a C string. -/
def NUL : Char := Char.ofNat 0

/-- The C string a character buffer holds (`c_str()`, `Path::FromFS`,
`AllocatedPath::FromFS`): the characters before the first `NUL`. -/
def c_str (buffer : List Char) : List Char :=
  buffer.takeWhile (fun c => c != NUL)

/-- What `FindSlash` comes to: a pointer to index `i` of the buffer, the null
pointer, or a read outside the buffer. -/
inductive SlashSearch where
  | found (i : Nat)
  | nullptr
  | out_of_bounds
deriving DecidableEq, Repr

/-- Function `FindSlash` (lines 8-17) on the buffer `p` reads `p[i]`,
`p[i-1]`, ... down to `p[1]`. -/
def FindSlash (p : List Char) : Nat → SlashSearch
  | 0 => .nullptr
  | i + 1 =>
    match p.get? (i + 1) with
    | none => .out_of_bounds
    | some c => if c = '/' then .found (i + 1) else FindSlash p i

/-- An `ArchiveLookupResult`: `none` is the empty result `{}`, `some (archive,
inside)` the two paths. -/
abbrev ArchiveLookupResult := Option (List Char × List Char)

/-- The record of the `stat` calls of one run, oldest first: the value of
`idx` and the path given to `FileInfo`. -/
abbrev StatLog := List (Nat × List Char)

/-- The loop of `LookupFile` (lines 27-76) on the variables `buffer`, `idx`
and `slash` (an index into the buffer, `none` for the null pointer).  `win32`
is the build for Windows; `fuel` bounds the number of iterations the model
follows. -/
def LookupFile.loop (win32 : Bool) (fs : FileSystem) :
    Nat → List Char → Nat → Option Nat → StatLog →
      Snapcast.Outcome ArchiveLookupResult × StatLog
  | 0, _, _, _, log => (.out_of_fuel, log)
  | fuel + 1, buffer, idx, slash, log =>
    let log := log ++ [(idx, c_str buffer)]
    match fs (c_str buffer) with
    | .regular =>
      match slash with
      | none => (.returned none, log)
      | some k => (.returned (some (c_str buffer, c_str (buffer.drop (k + 1)))), log)
    | .other_kind => (.returned none, log)
    | .failed => (.threw, log)
    | .not_found =>
      if win32 && idx == 0 then (.threw, log)
      else
        let buffer := match slash with
          | none => buffer
          | some k => buffer.set k '/'
        if idx = 0 then (.assertion_failed, log)
        else
          match FindSlash buffer (idx - 1) with
          | .out_of_bounds => (.invalid_pointer, log)
          | .nullptr => (.returned none, log)
          | .found k => LookupFile.loop win32 fs fuel (buffer.set k NUL) k (some k) log

/-- Function `LookupFile` (lines 19-77): how the call ends, and the record of
its `stat` calls.  A `Path` is a C string: the buffer starts as the characters
of `pathname` before the first `NUL`, and the two paths of a result are the C
strings that start at the buffer and after the slash. -/
def LookupFile (win32 : Bool) (fs : FileSystem) (fuel : Nat) (pathname : List Char) :
    Snapcast.Outcome ArchiveLookupResult × StatLog :=
  let buffer := c_str pathname
  LookupFile.loop win32 fs fuel buffer buffer.length none []

/-! ## The same loop on the index alone -/

/-- The loop of `LookupFile` as it acts on a path `p` without `NUL`: the
buffer is `p` with a `NUL` at `idx`, so the path given to `stat` is the first
`idx` characters of `p`; `first` is true while `slash` is null.  The lemma
`loop_eq_walk` shows that the loop above computes this. -/
def LookupFile.walk (win32 : Bool) (fs : FileSystem) (p : List Char) :
    Nat → Nat → Bool → StatLog → Snapcast.Outcome ArchiveLookupResult × StatLog
  | 0, _, _, log => (.out_of_fuel, log)
  | fuel + 1, idx, first, log =>
    let log := log ++ [(idx, p.take idx)]
    match fs (p.take idx) with
    | .regular =>
      if first then (.returned none, log)
      else (.returned (some (p.take idx, p.drop (idx + 1))), log)
    | .other_kind => (.returned none, log)
    | .failed => (.threw, log)
    | .not_found =>
      if win32 && idx == 0 then (.threw, log)
      else if idx = 0 then (.assertion_failed, log)
      else
        match FindSlash p (idx - 1) with
        | .out_of_bounds => (.invalid_pointer, log)
        | .nullptr => (.returned none, log)
        | .found k => LookupFile.walk win32 fs p fuel k false log

/-- The number of `/` in `p` at the indices from 1 to `idx - 1`. -/
def slashesBelow (p : List Char) (idx : Nat) : Nat :=
  ((p.take idx).drop 1).count '/'

/-! ## A file system for concrete runs -/

/-- A file system for concrete runs: the regular file `/music/a.zip`, the
directory `/music`, and nothing else. -/
def demoFs : FileSystem := fun path =>
  if path = "/music/a.zip".data then .regular
  else if path = "/music".data then .other_kind
  else .not_found

end Fs

/-! # The playlist vector: `src/db/PlaylistVector.cxx` -/

namespace Db

/-- A playlist entry (`PlaylistInfo`, declared in db/PlaylistInfo.hxx, which
is not among the sources): its name, its modification time (a
`system_clock::time_point`, here its count of ticks) and its mark. -/
structure PlaylistInfo where
  name : String
  mtime : Int
  mark : Bool
deriving DecidableEq, Repr

/-- A `PlaylistVector` is a `std::list<PlaylistInfo>`. -/
abbrev PlaylistVector := List PlaylistInfo

/-- Method `PlaylistVector::find` (lines 10-17) without its assertion:
`std::find_if` with `PlaylistInfo::CompareName(name)`.  The iterator is the
index of the first entry with that name, and the length of the list for
`end()`. -/
def PlaylistVector.findIndex : PlaylistVector → String → Nat
  | [], _ => 0
  | pi :: rest, name => if pi.name = name then 0 else PlaylistVector.findIndex rest name + 1

/-- Method `PlaylistVector::find` (lines 10-17).  `holding_db_lock` is what
`holding_db_lock()` returns for the calling thread. -/
def PlaylistVector.find (holding_db_lock : Bool) (v : PlaylistVector) (name : String) :
    Snapcast.Outcome Nat :=
  if !holding_db_lock then .assertion_failed
  else .returned (v.findIndex name)

/-- Method `PlaylistVector::UpdateOrInsert` (lines 19-38): the value returned
and the vector after the call. -/
def PlaylistVector.UpdateOrInsert (holding_db_lock : Bool) (v : PlaylistVector)
    (pi : PlaylistInfo) : Snapcast.Outcome (Bool × PlaylistVector) :=
  if !holding_db_lock then .assertion_failed
  else
    match PlaylistVector.find holding_db_lock v pi.name with
    | .returned i =>
      match v.get? i with
      | some entry =>
        let v := v.set i { entry with mark := true }
        if pi.mtime = entry.mtime then .returned (false, v)
        else .returned (true, v.set i { entry with mark := true, mtime := pi.mtime })
      | none =>
        .returned (true, v ++ [{ pi with mark := true }])
    | _ => .assertion_failed

/-- The first entry of `v` with the given name, if there is one. -/
def PlaylistVector.first (v : PlaylistVector) (name : String) : Option PlaylistInfo :=
  List.find? (fun entry => entry.name == name) v

/-- A vector for concrete runs: two playlists. -/
def twoLists : PlaylistVector :=
  [{ name := "rock", mtime := 10, mark := false }, { name := "jazz", mtime := 20, mark := false }]

end Db

/-! ## Theorems -/

namespace Snapcast


theorem callsOn_append (c : ClientId) (a b : List (ClientId × ClientCall)) :
    callsOn c (a ++ b) = callsOn c a ++ callsOn c b := by
  simp [callsOn]

theorem callsOn_broadcast (c : ClientId) (call : ClientCall) (clients : List ClientId) :
    callsOn c (clients.map (fun k => (k, call))) = List.replicate (clients.count c) call := by
  induction clients with
  | nil => simp [callsOn]
  | cons k rest ih =>
    simp only [callsOn] at ih
    by_cases h : k = c
    · subst h
      simp [callsOn, List.replicate_succ, ih]
    · have h2 : (k == c) = false := by simpa using h
      simp [callsOn, List.count_cons, h2, ih, h]

theorem OnInject_loop_spec {T E : Type} (queue : List SnapcastChunk) (s : SnapcastOutput T E) :
    (OnInject.loop queue s).chunks = [] ∧
    (OnInject.loop queue s).clients = s.clients ∧
    (OnInject.loop queue s).open_ = s.open_ ∧
    (OnInject.loop queue s).client_calls =
      s.client_calls ++
        queue.flatMap (fun chunk => s.clients.map (fun c => (c, ClientCall.Push chunk))) := by
  induction queue generalizing s with
  | nil => simp [OnInject.loop]
  | cons chunk rest ih =>
    obtain ⟨h1, h2, h3, h4⟩ := ih
      { s with chunks := rest
               client_calls := s.client_calls ++ s.clients.map (fun c => (c, ClientCall.Push chunk)) }
    refine ⟨?_, ?_, ?_, ?_⟩
    · simpa [OnInject.loop] using h1
    · simpa [OnInject.loop] using h2
    · simpa [OnInject.loop] using h3
    · simp only [OnInject.loop, h4, List.flatMap_cons, List.append_assoc]

/-- C1: one run of `OnInject` empties the queue, keeps the client list, and
appends to the record of client calls, for each queued chunk in queue order,
one `Push` of that chunk on each client in list order (so every client has
chunk i before any client has chunk i+1); a session that is in the list once
is therefore pushed each queued chunk once, in queue order. -/
theorem OnInject_fanout {T E : Type} (s : SnapcastOutput T E) :
    (OnInject s).chunks = [] ∧
    (OnInject s).clients = s.clients ∧
    (OnInject s).client_calls =
      s.client_calls ++
        s.chunks.flatMap (fun chunk => s.clients.map (fun c => (c, ClientCall.Push chunk))) ∧
    (∀ c, s.clients.count c = 1 →
      callsOn c (OnInject s).client_calls =
        callsOn c s.client_calls ++ s.chunks.map ClientCall.Push) := by
  obtain ⟨h1, h2, _, h4⟩ := OnInject_loop_spec s.chunks s
  refine ⟨h1, h2, h4, ?_⟩
  intro c hc
  have h5 : (OnInject s).client_calls = s.client_calls ++
        s.chunks.flatMap (fun chunk => s.clients.map (fun c => (c, ClientCall.Push chunk))) := h4
  rw [h5, callsOn_append]
  congr 1
  generalize s.chunks = queue
  induction queue with
  | nil => simp [callsOn]
  | cons chunk rest ih =>
    rw [List.flatMap_cons, callsOn_append, ih, callsOn_broadcast, hc]
    simp

/-- C1 at a concrete output: two clients, two queued chunks. -/
theorem OnInject_fanout_witness :
    (sample [7, 5] [⟨1, [1, 2]⟩, ⟨2, [3]⟩]).clients.count 7 = 1 ∧
    callsOn 7 (OnInject (sample [7, 5] [⟨1, [1, 2]⟩, ⟨2, [3]⟩])).client_calls =
      callsOn 7 (sample [7, 5] [⟨1, [1, 2]⟩, ⟨2, [3]⟩]).client_calls ++
        (sample [7, 5] [⟨1, [1, 2]⟩, ⟨2, [3]⟩]).chunks.map ClientCall.Push :=
  ⟨by decide, (OnInject_fanout (sample [7, 5] [⟨1, [1, 2]⟩, ⟨2, [3]⟩])).2.2.2 7 (by decide)⟩

theorem Play_loop_spec {T E : Type} (enc : EncoderOps E) (now : TimePoint)
    (e : E) (payloads : List Bytes) (e' : E) (h : ReadsUntilEmpty enc e payloads e') :
    ∀ (fuel : Nat) (s : SnapcastOutput T E), payloads.length < fuel →
      Play.loop enc now fuel e s =
        (.returned (),
          { s with encoder := some e'
                   encoder_calls :=
                     s.encoder_calls ++ List.replicate (payloads.length + 1) (EncoderCall.Read 32768)
                   unflushed_input := if payloads.isEmpty then s.unflushed_input else 0
                   inject_event := s.inject_event || (s.chunks.isEmpty && !payloads.isEmpty)
                   chunks := s.chunks ++ payloads.map (fun p => { time := now, payload := p }) }) := by
  induction h with
  | stop e hempty =>
    intro fuel s hfuel
    cases fuel with
    | zero => simp at hfuel
    | succ fuel =>
      simp [Play.loop, hempty]
  | read e payloads e' hne _ ih =>
    intro fuel s hfuel
    cases fuel with
    | zero => simp at hfuel
    | succ fuel =>
      have hfuel' : payloads.length < fuel := by simpa using hfuel
      have hne' : (enc.Read e 32768).1.isEmpty = false := by
        cases hr : (enc.Read e 32768).1 with
        | nil => exact absurd hr hne
        | cons _ _ => rfl
      rw [Play.loop]
      simp only [hne', Bool.false_eq_true, if_false]
      rw [ih fuel _ hfuel']
      cases hc : s.chunks <;>
        simp [hc, List.replicate_succ]

theorem Play_with_clients {T E : Type} (tm : TimerOps T) (enc : EncoderOps E) (now : TimePoint)
    (src : Bytes) (s : SnapcastOutput T E) (t : T) (e : E) (payloads : List Bytes) (e' : E)
    (htimer : s.timer = some t) (hclients : s.clients ≠ []) (hencoder : s.encoder = some e)
    (hwrite : (enc.Write e src).1 = true)
    (hreads : ReadsUntilEmpty enc
      (if s.unflushed_input + src.length ≥ 65536 then (enc.Flush (enc.Write e src).2).2
       else (enc.Write e src).2) payloads e')
    (fuel : Nat) (hfuel : payloads.length < fuel) :
    Play tm enc fuel now src s =
      (.returned src.length,
        { s with pause := false
                 timer := some (tm.Add (if !tm.IsStarted t then tm.Start t else t) src.length)
                 encoder := some e'
                 encoder_calls :=
                   s.encoder_calls ++ [EncoderCall.Write src] ++
                     (if s.unflushed_input + src.length ≥ 65536 then [EncoderCall.Flush] else []) ++
                     List.replicate (payloads.length + 1) (EncoderCall.Read 32768)
                 unflushed_input :=
                   if payloads.isEmpty then
                     (if s.unflushed_input + src.length ≥ 65536 then 0
                      else s.unflushed_input + src.length)
                   else 0
                 inject_event := s.inject_event || (s.chunks.isEmpty && !payloads.isEmpty)
                 chunks := s.chunks ++ payloads.map (fun p => { time := now, payload := p }) }) := by
  have hcl : s.clients.isEmpty = false := by
    cases hc : s.clients with
    | nil => exact absurd hc hclients
    | cons _ _ => rfl
  unfold Play
  simp only [htimer, hencoder, LockHasClients, hcl, hwrite, Bool.not_false, Bool.not_true,
    Bool.false_eq_true, if_false]
  by_cases hflush : s.unflushed_input + src.length ≥ 65536
  · simp only [hflush, if_true] at hreads ⊢
    rw [Play_loop_spec enc now _ payloads e' hreads fuel _ hfuel]
    simp [Outcome.returning]
  · simp only [hflush, if_false] at hreads ⊢
    rw [Play_loop_spec enc now _ payloads e' hreads fuel _ hfuel]
    simp [Outcome.returning]

/-- C2: `Play(src)` on an open output (live timer and encoder) with at least
one client and an encoder whose `Write` does not throw, the reads reaching an
empty one after the non-empty reads `payloads`: followed for more reads than
that, `Play` returns `src.size()`; the queue afterwards is the queue before
followed by one chunk per non-empty read, in read order, each with the clock
value `now` of this call and the bytes of its read; the wake-up is scheduled
afterwards if it was before or if the queue was empty and a chunk was pushed;
the client list and the open flag are as before. -/
theorem Play_enqueues {T E : Type} (tm : TimerOps T) (enc : EncoderOps E) (now : TimePoint)
    (src : Bytes) (s : SnapcastOutput T E) (t : T) (e : E) (payloads : List Bytes) (e' : E)
    (htimer : s.timer = some t) (hclients : s.clients ≠ []) (hencoder : s.encoder = some e)
    (hwrite : (enc.Write e src).1 = true)
    (hreads : ReadsUntilEmpty enc
      (if s.unflushed_input + src.length ≥ 65536 then (enc.Flush (enc.Write e src).2).2
       else (enc.Write e src).2) payloads e')
    (fuel : Nat) (hfuel : payloads.length < fuel) :
    (Play tm enc fuel now src s).1 = .returned src.length ∧
    (Play tm enc fuel now src s).2.chunks =
      s.chunks ++ payloads.map (fun p => { time := now, payload := p }) ∧
    (Play tm enc fuel now src s).2.inject_event =
      (s.inject_event || (s.chunks.isEmpty && !payloads.isEmpty)) ∧
    (Play tm enc fuel now src s).2.clients = s.clients ∧
    (Play tm enc fuel now src s).2.open_ = s.open_ := by
  rw [Play_with_clients tm enc now src s t e payloads e' htimer hclients hencoder hwrite hreads
    fuel hfuel]
  exact ⟨rfl, rfl, rfl, rfl, rfl⟩

/-- C2 at a concrete output: one client, an empty queue, three bytes played
through the pass-through encoder, which gives them back in one read. -/
theorem Play_enqueues_witness :
    (Play byteTimer passEncoder 2 42 [9, 9, 9] (sample [7] [])).1 = .returned 3 ∧
    (Play byteTimer passEncoder 2 42 [9, 9, 9] (sample [7] [])).2.chunks =
      [{ time := 42, payload := [9, 9, 9] }] ∧
    (Play byteTimer passEncoder 2 42 [9, 9, 9] (sample [7] [])).2.inject_event = true :=
  have h := Play_enqueues byteTimer passEncoder 42 [9, 9, 9] (sample [7] [])
    { started := false, bytes := 0 } [] [[9, 9, 9]] [] rfl (by decide) rfl rfl
    (ReadsUntilEmpty.read [9, 9, 9] [] [] (by decide) (ReadsUntilEmpty.stop [] rfl)) 2 (by decide)
  ⟨h.1, h.2.1, h.2.2.1⟩

theorem Play_no_clients {T E : Type} (tm : TimerOps T) (enc : EncoderOps E) (fuel : Nat)
    (now : TimePoint) (src : Bytes) (s : SnapcastOutput T E) (t : T)
    (htimer : s.timer = some t) (hclients : s.clients = []) :
    Play tm enc fuel now src s =
      (.returned src.length,
        { s with pause := false
                 timer := some (tm.Add (if tm.IsStarted t then t else tm.Start t) src.length) }) := by
  unfold Play
  cases hs : tm.IsStarted t <;> simp [htimer, LockHasClients, hclients, hs]

/-- C3: with an empty client list, `Play(src)` on an output with a live timer
returns `src.size()`; the timer is started if it was not and then advanced by
`src.size()` bytes; the pause flag is cleared; nothing else in the output
changes: no call reaches the encoder, and the encoder, the queue and
`unflushed_input` are as before. -/
theorem Play_without_clients {T E : Type} (tm : TimerOps T) (enc : EncoderOps E) (fuel : Nat)
    (now : TimePoint) (src : Bytes) (s : SnapcastOutput T E) (t : T)
    (htimer : s.timer = some t) (hclients : s.clients = []) :
    Play tm enc fuel now src s =
      (.returned src.length,
        { s with pause := false
                 timer := some (tm.Add (if tm.IsStarted t then t else tm.Start t) src.length) }) ∧
    (Play tm enc fuel now src s).2.encoder_calls = s.encoder_calls ∧
    (Play tm enc fuel now src s).2.encoder = s.encoder ∧
    (Play tm enc fuel now src s).2.chunks = s.chunks ∧
    (Play tm enc fuel now src s).2.unflushed_input = s.unflushed_input := by
  rw [Play_no_clients tm enc fuel now src s t htimer hclients]
  exact ⟨rfl, rfl, rfl, rfl, rfl⟩

/-- C3 at a concrete output: no clients, a timer not yet started, three
bytes played. -/
theorem Play_without_clients_witness :
    Play byteTimer passEncoder 0 42 [9, 9, 9] (sample [] []) =
      (.returned 3,
        { sample [] [] with pause := false, timer := some { started := true, bytes := 3 } }) :=
  (Play_without_clients byteTimer passEncoder 0 42 [9, 9, 9] (sample [] [])
    { started := false, bytes := 0 } rfl rfl).1

theorem Play_loop_frame {T E : Type} (enc : EncoderOps E) (now : TimePoint) :
    ∀ (fuel : Nat) (e : E) (s : SnapcastOutput T E),
      (Play.loop enc now fuel e s).2.clients = s.clients ∧
      (Play.loop enc now fuel e s).2.client_calls = s.client_calls ∧
      (Play.loop enc now fuel e s).2.open_ = s.open_ ∧
      (Play.loop enc now fuel e s).2.codec_header = s.codec_header ∧
      (Play.loop enc now fuel e s).2.pause = s.pause ∧
      (Play.loop enc now fuel e s).2.timer = s.timer := by
  intro fuel
  induction fuel with
  | zero => intro e s; simp [Play.loop]
  | succ fuel ih =>
    intro e s
    rw [Play.loop]
    by_cases hr : (enc.Read e 32768).1.isEmpty = true
    · simp [hr]
    · simp only [hr, Bool.false_eq_true, if_false]
      obtain ⟨h1, h2, h3, h4, h5, h6⟩ := ih (enc.Read e 32768).2
        { s with encoder := some (enc.Read e 32768).2
                 encoder_calls := s.encoder_calls ++ [EncoderCall.Read 32768]
                 unflushed_input := 0
                 inject_event := if s.chunks.isEmpty then true else s.inject_event
                 chunks := s.chunks ++ [{ time := now, payload := (enc.Read e 32768).1 }] }
      cases hc : s.chunks <;> simp_all

theorem Play_frame {T E : Type} (tm : TimerOps T) (enc : EncoderOps E) (fuel : Nat)
    (now : TimePoint) (src : Bytes) (s : SnapcastOutput T E) :
    (Play tm enc fuel now src s).2.clients = s.clients ∧
    (Play tm enc fuel now src s).2.client_calls = s.client_calls ∧
    (Play tm enc fuel now src s).2.open_ = s.open_ ∧
    (Play tm enc fuel now src s).2.codec_header = s.codec_header ∧
    (Play tm enc fuel now src s).2.pause = false := by
  unfold Play
  cases ht : s.timer with
  | none => simp
  | some t =>
    by_cases hcl : s.clients.isEmpty = true
    · simp [LockHasClients, hcl]
    · cases he : s.encoder with
      | none => simp [LockHasClients, hcl, he]
      | some e =>
        by_cases hw : (enc.Write e src).1 = true
        · simp only [LockHasClients, hcl, he, hw]
          simp only [Bool.not_false, Bool.not_true, Bool.false_eq_true, if_false, if_true]
          obtain ⟨h1, h2, h3, h4, h5, _⟩ := Play_loop_frame enc now fuel
            (if s.unflushed_input + src.length ≥ 65536 then (enc.Flush (enc.Write e src).2).2
             else (enc.Write e src).2)
            (if s.unflushed_input + List.length src ≥ 65536 then
              { s with pause := false
                       encoder := some (if s.unflushed_input + src.length ≥ 65536 then
                         (enc.Flush (enc.Write e src).2).2 else (enc.Write e src).2)
                       unflushed_input := 0
                       timer := some (tm.Add (if (!tm.IsStarted t) = true then tm.Start t else t)
                         src.length)
                       encoder_calls := s.encoder_calls ++ [EncoderCall.Write src] ++ [EncoderCall.Flush] }
            else
              { s with pause := false
                       encoder := some (enc.Write e src).2
                       unflushed_input := s.unflushed_input + src.length
                       timer := some (tm.Add (if (!tm.IsStarted t) = true then tm.Start t else t)
                         src.length)
                       encoder_calls := s.encoder_calls ++ [EncoderCall.Write src] })
          refine ⟨?_, ?_, ?_, ?_, ?_⟩
          · rw [h1]; split <;> rfl
          · rw [h2]; split <;> rfl
          · rw [h3]; split <;> rfl
          · rw [h4]; split <;> rfl
          · rw [h5]; split <;> rfl
        · simp [LockHasClients, hcl, he, hw]

/-- C4: `Cancel` empties the queue, calls `Cancel` once on each client in
list order, and keeps the client list and the open flag.  Hence in the run
`Play(x)`, `Play(y)`, `Cancel()`, `Play(z)`, `OnInject()` on an output with at
least one client, with `Play(z)` finding a live timer and encoder whose write
succeeds and whose reads give `payloads` before the first empty one: the
queue ends empty, the client list is as at the start, and the calls made on
the clients during the run are one `Cancel` on each client followed, for each
chunk of `z` in read order, by one `Push` of it on each client; nothing
queued by `x` or `y` is pushed. -/
theorem Cancel_discards {T E : Type} (tm : TimerOps T) (enc : EncoderOps E)
    (s : SnapcastOutput T E) (fx fy fz : Nat) (nx ny nz : TimePoint) (x y z : Bytes)
    (t : T) (e : E) (payloads : List Bytes) (e' : E)
    (hclients : s.clients ≠ [])
    (htimer : (Cancel (Play tm enc fy ny y (Play tm enc fx nx x s).2).2).timer = some t)
    (hencoder : (Cancel (Play tm enc fy ny y (Play tm enc fx nx x s).2).2).encoder = some e)
    (hwrite : (enc.Write e z).1 = true)
    (hreads : ReadsUntilEmpty enc
      (if (Cancel (Play tm enc fy ny y (Play tm enc fx nx x s).2).2).unflushed_input + z.length
            ≥ 65536
       then (enc.Flush (enc.Write e z).2).2 else (enc.Write e z).2) payloads e')
    (hfuel : payloads.length < fz) :
    ((Cancel s).chunks = [] ∧
      (Cancel s).client_calls = s.client_calls ++ s.clients.map (fun c => (c, ClientCall.Cancel)) ∧
      (Cancel s).clients = s.clients ∧
      (Cancel s).open_ = s.open_) ∧
    (OnInject (Play tm enc fz nz z
      (Cancel (Play tm enc fy ny y (Play tm enc fx nx x s).2).2)).2).chunks = [] ∧
    (OnInject (Play tm enc fz nz z
      (Cancel (Play tm enc fy ny y (Play tm enc fx nx x s).2).2)).2).clients = s.clients ∧
    (OnInject (Play tm enc fz nz z
      (Cancel (Play tm enc fy ny y (Play tm enc fx nx x s).2).2)).2).client_calls =
      s.client_calls ++ s.clients.map (fun c => (c, ClientCall.Cancel)) ++
        (payloads.map (fun p => ({ time := nz, payload := p } : SnapcastChunk))).flatMap
          (fun chunk => s.clients.map (fun c => (c, ClientCall.Push chunk))) := by
  obtain ⟨hx1, hx2, _, _, _⟩ := Play_frame tm enc fx nx x s
  obtain ⟨hy1, hy2, _, _, _⟩ := Play_frame tm enc fy ny y (Play tm enc fx nx x s).2
  have hc3 : (Cancel (Play tm enc fy ny y (Play tm enc fx nx x s).2).2).clients = s.clients := by
    simp [Cancel, hy1, hx1]
  have hq3 : (Cancel (Play tm enc fy ny y (Play tm enc fx nx x s).2).2).chunks = [] := by
    simp [Cancel]
  have hk3 : (Cancel (Play tm enc fy ny y (Play tm enc fx nx x s).2).2).client_calls =
      s.client_calls ++ s.clients.map (fun c => (c, ClientCall.Cancel)) := by
    simp [Cancel, hy1, hx1, hy2, hx2]
  have hz := Play_with_clients tm enc nz z _ t e payloads e' htimer (by rw [hc3]; exact hclients)
    hencoder hwrite hreads fz hfuel
  obtain ⟨h1, h2, _, h4⟩ := OnInject_loop_spec
    (Play tm enc fz nz z (Cancel (Play tm enc fy ny y (Play tm enc fx nx x s).2).2)).2.chunks
    (Play tm enc fz nz z (Cancel (Play tm enc fy ny y (Play tm enc fx nx x s).2).2)).2
  refine ⟨⟨rfl, rfl, rfl, rfl⟩, h1, ?_, ?_⟩
  · rw [OnInject, h2, hz]
    exact hc3
  · rw [OnInject, h4, hz]
    simp only [hc3, hq3, hk3, List.nil_append]

/-- C4 at a concrete output: one client; `x`, `y` and `z` are one byte each,
and only the chunk of `z` is pushed after the `Cancel`. -/
theorem Cancel_discards_witness :
    (OnInject (Play byteTimer passEncoder 2 30 [3]
      (Cancel (Play byteTimer passEncoder 2 20 [2]
        (Play byteTimer passEncoder 2 10 [1] (sample [7] [])).2).2)).2).client_calls =
      [(7, ClientCall.Cancel), (7, ClientCall.Push { time := 30, payload := [3] })] :=
  (Cancel_discards byteTimer passEncoder (sample [7] []) 2 2 2 10 20 30 [1] [2] [3]
    { started := true, bytes := 2 } [] [[3]] [] (by decide) (by decide) (by decide) rfl
    (ReadsUntilEmpty.read [3] [] [] (by decide) (ReadsUntilEmpty.stop [] rfl)) (by decide)).2.2.2

theorem runWith_invariant {T E : Type} (d : Deps T E) (allowed : Op → SnapcastOutput T E → Bool)
    (P : SnapcastOutput T E → Prop)
    (hstep : ∀ op s s', P s → allowed op s = true → step d op s = some s' → P s') :
    ∀ (ops : List Op) (s s' : SnapcastOutput T E), P s → runWith d allowed ops s = some s' → P s' := by
  intro ops
  induction ops with
  | nil =>
    intro s s' hP h
    simp only [runWith, Option.some.injEq] at h
    exact h ▸ hP
  | cons op ops ih =>
    intro s s' hP h
    rw [runWith] at h
    by_cases ha : allowed op s = true
    · simp only [ha, if_true] at h
      cases hs : step d op s with
      | none => simp [hs] at h
      | some s1 =>
        simp only [hs] at h
        exact ih s1 s' (hstep op s s1 hP ha hs) h
    · simp [ha] at h

theorem after_some {α T E : Type} (r : Outcome α × SnapcastOutput T E) (s' : SnapcastOutput T E)
    (h : after r = some s') : r.2 = s' ∧ r.1.completed = true := by
  unfold after at h
  by_cases hc : r.1.completed = true
  · simp only [hc, if_true, Option.some.injEq] at h
    exact ⟨h, hc⟩
  · simp [hc] at h

theorem OnInject_frame {T E : Type} (s : SnapcastOutput T E) :
    (OnInject s).chunks = [] ∧ (OnInject s).clients = s.clients ∧ (OnInject s).open_ = s.open_ := by
  obtain ⟨h1, h2, h3, _⟩ := OnInject_loop_spec s.chunks s
  exact ⟨h1, h2, h3⟩

theorem SendTag_frame {T E : Type} (have_json : Bool) (dump : JsonObject → Bytes) (tag : Tag)
    (s : SnapcastOutput T E) :
    (SendTag have_json dump tag s).open_ = s.open_ ∧
    (SendTag have_json dump tag s).clients = s.clients ∧
    (SendTag have_json dump tag s).chunks = s.chunks := by
  simp only [SendTag]
  split_ifs <;> exact ⟨rfl, rfl, rfl⟩

theorem closed_empty_step {T E : Type} (d : Deps T E) (op : Op) (s s' : SnapcastOutput T E)
    (hinv : s.open_ = false → s.clients = [] ∧ s.chunks = [])
    (hallowed : bindWhileClosed op s = true) (hstep : step d op s = some s') :
    s'.open_ = false → s'.clients = [] ∧ s'.chunks = [] := by
  cases op with
  | Bind socket_ok =>
    obtain ⟨h, _⟩ := after_some _ _ hstep
    have hclosed : s.open_ = false := by simpa [bindWhileClosed] using hallowed
    obtain ⟨hc, hq⟩ := hinv hclosed
    intro _
    subst h
    cases socket_ok <;> simp [Bind, hc, hq]
  | Unbind =>
    obtain ⟨h, _⟩ := after_some _ _ hstep
    subst h
    unfold Unbind
    cases ho : s.open_ <;> simp [ho]
    exact hinv ho
  | OnAccept fd =>
    simp only [step, Option.some.injEq] at hstep
    subst hstep
    unfold OnAccept
    cases ho : s.open_ <;> simp [ho, AddClient]
    exact hinv ho
  | Open audio_format =>
    obtain ⟨h, hcomp⟩ := after_some _ _ hstep
    subst h
    revert hcomp
    unfold Open
    cases ho : s.open_
    · cases hc : s.clients.isEmpty
      · simp [Outcome.completed]
      · cases he : d.encoder.Open audio_format with
        | none => intro _ _; exact hinv ho
        | some r => simp
    · simp [Outcome.completed]
  | Close =>
    obtain ⟨h, _⟩ := after_some _ _ hstep
    subst h
    unfold Close
    cases ho : s.open_ <;> simp [ho]
    exact hinv ho
  | OnInject =>
    simp only [step, Option.some.injEq] at hstep
    subst hstep
    obtain ⟨h1, h2, h3⟩ := OnInject_frame s
    intro hclosed
    rw [h3] at hclosed
    exact ⟨by rw [h2]; exact (hinv hclosed).1, h1⟩
  | RemoveClient client =>
    obtain ⟨h, hcomp⟩ := after_some _ _ hstep
    subst h
    revert hcomp
    unfold RemoveClient
    cases hc : s.clients.isEmpty
    · by_cases hm : client ∈ s.clients
      · simp only [hm, if_true, Bool.false_eq_true, if_false]
        intro _ hclosed
        have := (hinv hclosed).1
        simp [this] at hc
      · simp [hm, Outcome.completed]
    · simp [Outcome.completed]
  | Delay =>
    obtain ⟨h, _⟩ := after_some _ _ hstep
    subst h
    unfold Delay
    cases ht : s.timer with
    | none => simpa using hinv
    | some t => cases hp : s.pause <;> simpa using hinv
  | SendTag tag =>
    simp only [step, Option.some.injEq] at hstep
    subst hstep
    obtain ⟨h1, h2, h3⟩ := SendTag_frame d.have_json d.dump tag s
    rw [h1, h2, h3]
    exact hinv
  | Play fuel now src =>
    obtain ⟨h, hcomp⟩ := after_some _ _ hstep
    subst h
    obtain ⟨h1, _, h3, _, _⟩ := Play_frame d.timer d.encoder fuel now src s
    intro hclosed
    rw [h3] at hclosed
    obtain ⟨hc, hq⟩ := hinv hclosed
    refine ⟨by rw [h1]; exact hc, ?_⟩
    cases ht : s.timer with
    | none => simp [Play, ht, Outcome.completed] at hcomp
    | some t => rw [Play_no_clients d.timer d.encoder fuel now src s t ht hc]; exact hq
  | Pause =>
    simp only [step, Option.some.injEq] at hstep
    subst hstep
    exact hinv
  | Cancel =>
    simp only [step, Option.some.injEq] at hstep
    subst hstep
    intro hclosed
    exact ⟨(hinv hclosed).1, rfl⟩

/-- C5, as stated, fails: `Bind` asserts nothing, and called on an open
output with a client it clears the open flag and leaves the client. -/
theorem Bind_on_open_output_leaves_clients :
    (run demo [.Bind true, .Open ⟨44100, 16, 2⟩, .OnAccept 3, .Bind true]
      (construct ByteTimer Bytes 1704 true)).map (fun s => (s.open_, s.clients, s.chunks)) =
    some (false, [3], []) := by
  decide

/-- C5, amended: in every state reached from a fresh output by calls that
complete (so each under its asserted precondition), with `Bind` called only
while the output is not open, a closed output has no clients and an empty
queue; `OnAccept` adds the client at the front exactly when the output is
open; a `Close` that returns leaves the output closed, without clients and
with an empty queue. -/
theorem closed_has_no_clients {T E : Type} (d : Deps T E) (port : Nat) (zeroconf : Bool)
    (ops : List Op) (s : SnapcastOutput T E)
    (hrun : runWith d bindWhileClosed ops (construct T E port zeroconf) = some s) :
    (s.open_ = false → s.clients = [] ∧ s.chunks = []) ∧
    (∀ fd, (OnAccept fd s).clients = if s.open_ then fd :: s.clients else s.clients) ∧
    ((Close s).1 = .returned () →
      (Close s).2.open_ = false ∧ (Close s).2.clients = [] ∧ (Close s).2.chunks = []) := by
  refine ⟨?_, ?_, ?_⟩
  · exact runWith_invariant d bindWhileClosed
      (fun s => s.open_ = false → s.clients = [] ∧ s.chunks = [])
      (fun op s s' hinv ha hs => closed_empty_step d op s s' hinv ha hs)
      ops (construct T E port zeroconf) s (fun _ => ⟨rfl, rfl⟩) hrun
  · intro fd
    unfold OnAccept
    cases s.open_ <;> simp [AddClient]
  · unfold Close
    cases s.open_ <;> simp

/-- C5, amended, at a concrete run: bind, open, accept a client, play,
close. -/
theorem closed_has_no_clients_witness :
    runWith demo bindWhileClosed
      [.Bind true, .Open ⟨44100, 16, 2⟩, .OnAccept 3, .Play 2 10 [1], .Close]
      (construct ByteTimer Bytes 1704 true) =
      some { construct ByteTimer Bytes 1704 true with
             listening := true, zeroconf_helper := true, encoder_calls := [.Write [1], .Read 32768, .Read 32768] } ∧
    (∀ fd, (OnAccept fd ({ construct ByteTimer Bytes 1704 true with
             listening := true, zeroconf_helper := true, encoder_calls := [.Write [1], .Read 32768, .Read 32768] } :
               SnapcastOutput ByteTimer Bytes)).clients = []) :=
  ⟨rfl, (closed_has_no_clients demo 1704 true
    [.Bind true, .Open ⟨44100, 16, 2⟩, .OnAccept 3, .Play 2 10 [1], .Close] _ rfl).2.1⟩

theorem header_open_step {T E : Type} (d : Deps T E) (hheader : HeaderFirst d.encoder)
    (op : Op) (s s' : SnapcastOutput T E)
    (hinv : s.codec_header ≠ [] ↔ s.open_ = true)
    (hallowed : openOrClose op s = true) (hstep : step d op s = some s') :
    s'.codec_header ≠ [] ↔ s'.open_ = true := by
  cases op with
  | Open audio_format =>
    obtain ⟨h, hcomp⟩ := after_some _ _ hstep
    subst h
    revert hcomp
    unfold Open
    cases ho : s.open_
    · cases hc : s.clients.isEmpty
      · simp [Outcome.completed]
      · cases he : d.encoder.Open audio_format with
        | none =>
          intro _
          simpa [ho] using hinv
        | some r =>
          obtain ⟨e, af'⟩ := r
          intro _
          simpa using hheader audio_format e af' he
    · simp [Outcome.completed]
  | Close =>
    obtain ⟨h, _⟩ := after_some _ _ hstep
    subst h
    unfold Close
    cases ho : s.open_
    · simpa [ho] using hinv
    · simp
  | Bind _ => simp [openOrClose] at hallowed
  | Unbind => simp [openOrClose] at hallowed
  | OnAccept _ => simp [openOrClose] at hallowed
  | OnInject => simp [openOrClose] at hallowed
  | RemoveClient _ => simp [openOrClose] at hallowed
  | Delay => simp [openOrClose] at hallowed
  | SendTag _ => simp [openOrClose] at hallowed
  | Play _ _ _ => simp [openOrClose] at hallowed
  | Pause => simp [openOrClose] at hallowed
  | Cancel => simp [openOrClose] at hallowed

/-- C6: with an encoder whose first read after `Open` is not empty (the
codec contract: that read is the codec header), in every state reached from a
fresh output by calls of `Open` and `Close` that complete, `codec_header` is
non-empty exactly when the output is open; an `Open` on a closed output
without clients whose encoder opens stores the encoder's first read (into a
buffer of 4096 bytes) as `codec_header` and sets the open flag; a `Close` on
an open output empties `codec_header` and clears the open flag. -/
theorem header_iff_open {T E : Type} (d : Deps T E) (hheader : HeaderFirst d.encoder)
    (port : Nat) (zeroconf : Bool) (ops : List Op) (s : SnapcastOutput T E)
    (hrun : runWith d openOrClose ops (construct T E port zeroconf) = some s) :
    (s.codec_header ≠ [] ↔ s.open_ = true) ∧
    (∀ af e af', d.encoder.Open af = some (e, af') → s.open_ = false → s.clients = [] →
      (Open d.timer d.encoder af s).1 = .returned () ∧
      (Open d.timer d.encoder af s).2.codec_header = (ReadEncoder d.encoder e).1 ∧
      (Open d.timer d.encoder af s).2.open_ = true) ∧
    (s.open_ = true →
      (Close s).1 = .returned () ∧ (Close s).2.codec_header = [] ∧ (Close s).2.open_ = false) := by
  refine ⟨?_, ?_, ?_⟩
  · exact runWith_invariant d openOrClose
      (fun s => s.codec_header ≠ [] ↔ s.open_ = true)
      (fun op s s' hinv ha hs => header_open_step d hheader op s s' hinv ha hs)
      ops (construct T E port zeroconf) s (by simp [construct]) hrun
  · intro af e af' he ho hc
    simp [Open, ho, hc, he, ReadEncoder]
  · intro ho
    simp [Close, ho]

/-- C6 at a concrete run: open, close, open again, with the pass-through
encoder and its header of four bytes. -/
theorem header_iff_open_witness :
    runWith demo openOrClose [.Open ⟨44100, 16, 2⟩, .Close, .Open ⟨44100, 16, 2⟩]
        (construct ByteTimer Bytes 1704 true) =
      some { construct ByteTimer Bytes 1704 true with
             open_ := true, encoder := some [], codec_header := [82, 73, 70, 70]
             timer := some { started := false, bytes := 0 } } ∧
    (([82, 73, 70, 70] : Bytes) ≠ [] ↔ true = true) :=
  ⟨rfl,
    (header_iff_open demo
      (fun af e af' h => by
        simp only [demo, passEncoder, Option.some.injEq, Prod.mk.injEq] at h
        obtain ⟨h1, _⟩ := h
        subst h1
        decide)
      1704 true [.Open ⟨44100, 16, 2⟩, .Close, .Open ⟨44100, 16, 2⟩]
      { construct ByteTimer Bytes 1704 true with
        open_ := true, encoder := some [], codec_header := [82, 73, 70, 70]
        timer := some { started := false, bytes := 0 } } rfl).1⟩

theorem ToJson_eq (tag : Tag) :
    ToJson tag =
      (TranslateTagType (TranslateTagType (TranslateTagType (TranslateTagType [] tag
        .TAG_ARTIST "artist").1 tag .TAG_ALBUM "album").1 tag .TAG_TITLE "track").1 tag
        .TAG_MUSICBRAINZ_TRACKID "musicbrainzid").1 := rfl

theorem snapcast_tags_value (tag : Tag) (n v : String) :
    (∃ t, (t, n) ∈ snapcast_tags ∧ tag.GetValue t = some v) ↔
      (n = "artist" ∧ tag.GetValue .TAG_ARTIST = some v) ∨
      (n = "album" ∧ tag.GetValue .TAG_ALBUM = some v) ∨
      (n = "track" ∧ tag.GetValue .TAG_TITLE = some v) ∨
      (n = "musicbrainzid" ∧ tag.GetValue .TAG_MUSICBRAINZ_TRACKID = some v) := by
  constructor
  · rintro ⟨t, ht, hv⟩
    simp only [snapcast_tags, List.mem_cons, Prod.mk.injEq, List.mem_singleton, List.mem_nil_iff,
      or_false] at ht
    rcases ht with ⟨rfl, rfl⟩ | ⟨rfl, rfl⟩ | ⟨rfl, rfl⟩ | ⟨rfl, rfl⟩
    · exact Or.inl ⟨rfl, hv⟩
    · exact Or.inr (Or.inl ⟨rfl, hv⟩)
    · exact Or.inr (Or.inr (Or.inl ⟨rfl, hv⟩))
    · exact Or.inr (Or.inr (Or.inr ⟨rfl, hv⟩))
  · rintro (⟨rfl, hv⟩ | ⟨rfl, hv⟩ | ⟨rfl, hv⟩ | ⟨rfl, hv⟩)
    · exact ⟨.TAG_ARTIST, by simp [snapcast_tags], hv⟩
    · exact ⟨.TAG_ALBUM, by simp [snapcast_tags], hv⟩
    · exact ⟨.TAG_TITLE, by simp [snapcast_tags], hv⟩
    · exact ⟨.TAG_MUSICBRAINZ_TRACKID, by simp [snapcast_tags], hv⟩

theorem ToJson_mem (tag : Tag) (n v : String) :
    (n, v) ∈ ToJson tag ↔ ∃ t, (t, n) ∈ snapcast_tags ∧ tag.GetValue t = some v := by
  rw [ToJson_eq, snapcast_tags_value]
  cases h1 : tag.GetValue .TAG_ARTIST <;> cases h2 : tag.GetValue .TAG_ALBUM <;>
    cases h3 : tag.GetValue .TAG_TITLE <;> cases h4 : tag.GetValue .TAG_MUSICBRAINZ_TRACKID <;>
    simp only [TranslateTagType, h1, h2, h3, h4] <;>
    simp [JsonObject.emplace, keyLess] <;>
    tauto

theorem ToJson_keys_nodup (tag : Tag) : ((ToJson tag).map Prod.fst).Nodup := by
  rw [ToJson_eq]
  cases h1 : tag.GetValue .TAG_ARTIST <;> cases h2 : tag.GetValue .TAG_ALBUM <;>
    cases h3 : tag.GetValue .TAG_TITLE <;> cases h4 : tag.GetValue .TAG_MUSICBRAINZ_TRACKID <;>
    simp only [TranslateTagType, h1, h2, h3, h4] <;>
    simp [JsonObject.emplace, keyLess]

/-- C7: for every tag, `ToJson(tag)` is an object (no key twice) that has a
field `n` with value `v` exactly when `n` is the name the table
`snapcast_tags` gives to one of its four tag kinds and `v` is the value
`GetValue` returns for that kind; so a kind outside the table contributes
nothing.  The tag with artist "A", title "T" and composer "C" gives the object
with the two fields artist "A" and track "T". -/
theorem ToJson_fields (tag : Tag) :
    ((ToJson tag).map Prod.fst).Nodup ∧
    (∀ n v, (n, v) ∈ ToJson tag ↔ ∃ t, (t, n) ∈ snapcast_tags ∧ tag.GetValue t = some v) ∧
    snapcast_tags =
      [(.TAG_ARTIST, "artist"), (.TAG_ALBUM, "album"), (.TAG_TITLE, "track"),
        (.TAG_MUSICBRAINZ_TRACKID, "musicbrainzid")] ∧
    ToJson [⟨.TAG_ARTIST, "A"⟩, ⟨.TAG_TITLE, "T"⟩, ⟨.TAG_COMPOSER, "C"⟩] =
      [("artist", "A"), ("track", "T")] :=
  ⟨ToJson_keys_nodup tag, ToJson_mem tag, rfl, by decide⟩

theorem ToJson_isEmpty (tag : Tag) :
    (ToJson tag).isEmpty =
      !((tag.GetValue .TAG_ARTIST).isSome || (tag.GetValue .TAG_ALBUM).isSome ||
        (tag.GetValue .TAG_TITLE).isSome || (tag.GetValue .TAG_MUSICBRAINZ_TRACKID).isSome) := by
  rw [ToJson_eq]
  cases h1 : tag.GetValue .TAG_ARTIST <;> cases h2 : tag.GetValue .TAG_ALBUM <;>
    cases h3 : tag.GetValue .TAG_TITLE <;> cases h4 : tag.GetValue .TAG_MUSICBRAINZ_TRACKID <;>
    simp only [TranslateTagType, h1, h2, h3, h4] <;>
    simp [JsonObject.emplace, keyLess]

/-- C8: in a build with the JSON library, for every tag and output,
`SendTag` makes calls on clients exactly when the client list is not empty
and the tag has a value for artist, album, title or musicbrainz track id; the
calls are then one `SendStreamTags` on each client, in list order, with the
bytes of the serialized `ToJson(tag)`; otherwise no call is made.  The queue
and the client list are unchanged in every case. -/
theorem SendTag_broadcast {T E : Type} (dump : JsonObject → Bytes) (tag : Tag)
    (s : SnapcastOutput T E) :
    (SendTag true dump tag s).client_calls =
      s.client_calls ++
        (if !s.clients.isEmpty &&
            ((tag.GetValue .TAG_ARTIST).isSome || (tag.GetValue .TAG_ALBUM).isSome ||
              (tag.GetValue .TAG_TITLE).isSome ||
              (tag.GetValue .TAG_MUSICBRAINZ_TRACKID).isSome)
         then s.clients.map (fun c => (c, ClientCall.SendStreamTags (dump (ToJson tag))))
         else []) ∧
    (SendTag true dump tag s).chunks = s.chunks ∧
    (SendTag true dump tag s).clients = s.clients := by
  obtain ⟨_, h2, h3⟩ := SendTag_frame true dump tag s
  refine ⟨?_, h3, h2⟩
  simp only [SendTag, LockHasClients, ToJson_isEmpty, if_true]
  cases hc : s.clients.isEmpty <;>
    cases hv : ((tag.GetValue .TAG_ARTIST).isSome || (tag.GetValue .TAG_ALBUM).isSome ||
        (tag.GetValue .TAG_TITLE).isSome || (tag.GetValue .TAG_MUSICBRAINZ_TRACKID).isSome) <;>
    simp [hv]

theorem OnInject_loop_pause {T E : Type} (queue : List SnapcastChunk) (s : SnapcastOutput T E) :
    (OnInject.loop queue s).pause = s.pause := by
  induction queue generalizing s with
  | nil => rfl
  | cons chunk rest ih => rw [OnInject.loop, ih]

theorem SendTag_pause {T E : Type} (have_json : Bool) (dump : JsonObject → Bytes) (tag : Tag)
    (s : SnapcastOutput T E) : (SendTag have_json dump tag s).pause = s.pause := by
  simp only [SendTag]
  split_ifs <;> rfl

theorem Open_pause {T E : Type} (tm : TimerOps T) (enc : EncoderOps E) (af : AudioFormat)
    (s : SnapcastOutput T E) :
    (Open tm enc af s).1 = .returned () → (Open tm enc af s).2.pause = false := by
  unfold Open
  cases s.open_
  · cases s.clients.isEmpty
    · simp
    · cases enc.Open af <;> simp
  · simp

theorem step_pause {T E : Type} (d : Deps T E) (op : Op) (s s' : SnapcastOutput T E)
    (hallowed : neitherPlayNorOpen op s = true) (hstep : step d op s = some s') :
    s'.pause = (s.pause || decide (op = .Pause)) := by
  cases op with
  | Bind socket_ok =>
    obtain ⟨h, _⟩ := after_some _ _ hstep
    subst h
    cases socket_ok <;> simp [Bind]
  | Unbind =>
    obtain ⟨h, _⟩ := after_some _ _ hstep
    subst h
    unfold Unbind
    cases s.open_ <;> simp
  | OnAccept fd =>
    simp only [step, Option.some.injEq] at hstep
    subst hstep
    unfold OnAccept
    cases s.open_ <;> simp [AddClient]
  | Open audio_format => simp [neitherPlayNorOpen] at hallowed
  | Close =>
    obtain ⟨h, _⟩ := after_some _ _ hstep
    subst h
    unfold Close
    cases s.open_ <;> simp
  | OnInject =>
    simp only [step, Option.some.injEq] at hstep
    subst hstep
    simp [OnInject, OnInject_loop_pause]
  | RemoveClient client =>
    obtain ⟨h, _⟩ := after_some _ _ hstep
    subst h
    unfold RemoveClient
    split_ifs <;> simp
  | Delay =>
    obtain ⟨h, _⟩ := after_some _ _ hstep
    subst h
    unfold Delay
    cases ht : s.timer with
    | none => simp
    | some t => cases hp : s.pause <;> simp [hp]
  | SendTag tag =>
    simp only [step, Option.some.injEq] at hstep
    subst hstep
    simp [SendTag_pause]
  | Play fuel now src => simp [neitherPlayNorOpen] at hallowed
  | Pause =>
    simp only [step, Option.some.injEq] at hstep
    subst hstep
    simp [Pause]
  | Cancel =>
    simp only [step, Option.some.injEq] at hstep
    subst hstep
    simp [Cancel]

theorem pause_set_by_Pause_only {T E : Type} (d : Deps T E) (op : Op) (s s' : SnapcastOutput T E)
    (hstep : step d op s = some s') (hafter : s'.pause = true) :
    s.pause = true ∨ op = .Pause := by
  by_cases hallowed : neitherPlayNorOpen op s = true
  · have h := step_pause d op s s' hallowed hstep
    rw [hafter] at h
    cases hp : s.pause
    · right
      simpa [hp] using h
    · left; rfl
  · cases op with
    | Play fuel now src =>
      obtain ⟨h, _⟩ := after_some _ _ hstep
      subst h
      rw [(Play_frame d.timer d.encoder fuel now src s).2.2.2.2] at hafter
      exact absurd hafter (by simp)
    | Open audio_format =>
      obtain ⟨h, _⟩ := after_some _ _ hstep
      subst h
      left
      revert hafter
      unfold Open
      cases s.open_
      · cases s.clients.isEmpty
        · simp
        · cases d.encoder.Open audio_format <;> simp
      · simp
    | Bind _ => simp [neitherPlayNorOpen] at hallowed
    | Unbind => simp [neitherPlayNorOpen] at hallowed
    | OnAccept _ => simp [neitherPlayNorOpen] at hallowed
    | Close => simp [neitherPlayNorOpen] at hallowed
    | OnInject => simp [neitherPlayNorOpen] at hallowed
    | RemoveClient _ => simp [neitherPlayNorOpen] at hallowed
    | Delay => simp [neitherPlayNorOpen] at hallowed
    | SendTag _ => simp [neitherPlayNorOpen] at hallowed
    | Pause => simp [neitherPlayNorOpen] at hallowed
    | Cancel => simp [neitherPlayNorOpen] at hallowed

theorem Delay_eq {T E : Type} (tm : TimerOps T) (s : SnapcastOutput T E) (t : T)
    (ht : s.timer = some t) :
    Delay tm s =
      if s.pause then (.returned (seconds 1), { s with timer := some (tm.Reset t) })
      else (.returned (if tm.IsStarted t then tm.GetDelay t else 0), s) := by
  unfold Delay
  simp only [ht]

/-- C9 as stated fails in its last part: after `Pause`, `Close` and `Open`
the pause flag is clear and the timer is new, so a `Delay` made before the
next `Play` returns zero, not one second. -/
theorem Delay_after_reopen_is_zero :
    (run demo [.Bind true, .Open ⟨44100, 16, 2⟩, .Pause, .Close, .Open ⟨44100, 16, 2⟩]
      (construct ByteTimer Bytes 1704 true)).map (fun s => (s.pause, (Delay byteTimer s).1)) =
      some (false, .returned 0) ∧
    (Outcome.returned 0 : Outcome Duration) ≠ .returned (seconds 1) := by
  decide

/-- C9, amended: on an output with a live timer, `Delay` with the pause flag
set resets the timer and returns one second, and with the flag clear returns
the timer's `GetDelay()` if the timer is started and zero otherwise, leaving
the output as it is; a timer whose `GetDelay()` is never negative makes every
value `Delay` returns non-negative.  `Pause` returns true and sets the flag;
no other call sets it; `Play` clears it, and so does an `Open` that returns.
Hence after a `Pause`, through any calls other than `Play` and `Open`, the flag
stays set and a `Delay` returns one second. -/
theorem Delay_while_paused {T E : Type} (d : Deps T E)
    (hdelay : ∀ t, 0 ≤ d.timer.GetDelay t)
    (s : SnapcastOutput T E) (ops : List Op) (s' : SnapcastOutput T E)
    (hrun : runWith d neitherPlayNorOpen ops (Pause s).2 = some s') :
    (∀ (u : SnapcastOutput T E) t, u.timer = some t →
      Delay d.timer u =
        if u.pause then (.returned (seconds 1), { u with timer := some (d.timer.Reset t) })
        else (.returned (if d.timer.IsStarted t then d.timer.GetDelay t else 0), u)) ∧
    (∀ (u : SnapcastOutput T E) v, (Delay d.timer u).1 = .returned v → 0 ≤ v) ∧
    ((Pause s).1 = true ∧ (Pause s).2.pause = true) ∧
    (∀ op (u u' : SnapcastOutput T E), step d op u = some u' → u'.pause = true →
      u.pause = true ∨ op = .Pause) ∧
    (∀ fuel now src (u : SnapcastOutput T E),
      (Play d.timer d.encoder fuel now src u).2.pause = false) ∧
    (∀ af (u : SnapcastOutput T E), (Open d.timer d.encoder af u).1 = .returned () →
      (Open d.timer d.encoder af u).2.pause = false) ∧
    s'.pause = true ∧
    (∀ t, s'.timer = some t → (Delay d.timer s').1 = .returned (seconds 1)) := by
  have hpaused : s'.pause = true :=
    runWith_invariant d neitherPlayNorOpen (fun u => u.pause = true)
      (fun op u u' hp ha hs => by
        have h := step_pause d op u u' ha hs
        simp only at hp ⊢
        rw [h, hp]
        rfl)
      ops (Pause s).2 s' rfl hrun
  refine ⟨fun u t ht => Delay_eq d.timer u t ht, ?_, ⟨rfl, rfl⟩,
    fun op u u' hs ha => pause_set_by_Pause_only d op u u' hs ha,
    fun fuel now src u => (Play_frame d.timer d.encoder fuel now src u).2.2.2.2,
    fun af u h => Open_pause d.timer d.encoder af u h, hpaused, ?_⟩
  · intro u v hv
    cases ht : u.timer with
    | none => simp [Delay, ht] at hv
    | some t =>
      rw [Delay_eq d.timer u t ht] at hv
      cases hp : u.pause
      · simp only [hp, Bool.false_eq_true, if_false, Outcome.returned.injEq] at hv
        rw [← hv]
        split
        · exact hdelay t
        · exact le_refl _
      · simp only [hp, if_true, Outcome.returned.injEq] at hv
        rw [← hv]
        decide
  · intro t ht
    rw [Delay_eq d.timer s' t ht, hpaused]
    rfl

/-- C9, amended, at a concrete run: after `Pause`, a `Delay`, a new client, a
`Cancel`; the next `Delay` returns one second. -/
theorem Delay_while_paused_witness :
    runWith demo neitherPlayNorOpen [.Delay, .OnAccept 4, .Cancel] (Pause (sample [7] [])).2 =
      some { sample [4, 7] [] with
             pause := true, client_calls := [(4, .Cancel), (7, .Cancel)] } ∧
    (Delay byteTimer ({ sample [4, 7] [] with
        pause := true, client_calls := [(4, .Cancel), (7, .Cancel)] } :
          SnapcastOutput ByteTimer Bytes)).1 = .returned (seconds 1) :=
  ⟨rfl, (Delay_while_paused demo (fun t => Int.ofNat_nonneg t.bytes) (sample [7] [])
    [.Delay, .OnAccept 4, .Cancel]
    { sample [4, 7] [] with pause := true, client_calls := [(4, .Cancel), (7, .Cancel)] }
    rfl).2.2.2.2.2.2.2 { started := false, bytes := 0 } rfl⟩

/-- C10 as stated fails: with one client and an encoder whose `Write`
throws, `Play` of three bytes does not return 3; it ends by the exception. -/
theorem Play_write_failure_is_thrown :
    (Play byteTimer brokenEncoder 2 42 [9, 9, 9] (sample [7] [])).1 = .threw ∧
    (Play byteTimer brokenEncoder 2 42 [9, 9, 9] (sample [7] [])).1 ≠ .returned 3 := by
  decide

/-- C10, amended: for every `Play(src)` with at least one client on an output
with a live timer and encoder, a failure of the encoder's `Write` is not
caught: `Play` ends by the exception and returns nothing.  The output stays
open as it was, with its clients and its queue intact; the encoder has seen
the write and nothing after it. -/
theorem Play_write_failure {T E : Type} (tm : TimerOps T) (enc : EncoderOps E) (fuel : Nat)
    (now : TimePoint) (src : Bytes) (s : SnapcastOutput T E) (t : T) (e : E)
    (htimer : s.timer = some t) (hclients : s.clients ≠ []) (hencoder : s.encoder = some e)
    (hwrite : (enc.Write e src).1 = false) :
    (Play tm enc fuel now src s).1 = .threw ∧
    (Play tm enc fuel now src s).2.open_ = s.open_ ∧
    (Play tm enc fuel now src s).2.clients = s.clients ∧
    (Play tm enc fuel now src s).2.chunks = s.chunks ∧
    (Play tm enc fuel now src s).2.encoder_calls = s.encoder_calls ++ [EncoderCall.Write src] := by
  have hcl : s.clients.isEmpty = false := by
    cases hc : s.clients with
    | nil => exact absurd hc hclients
    | cons _ _ => rfl
  unfold Play
  simp [htimer, hencoder, LockHasClients, hcl, hwrite]

/-- C10, amended, at a concrete output: one client, the encoder whose `Write`
throws. -/
theorem Play_write_failure_witness :
    (Play byteTimer brokenEncoder 2 42 [9, 9, 9] (sample [7] [⟨1, [5]⟩])).1 = .threw ∧
    (Play byteTimer brokenEncoder 2 42 [9, 9, 9] (sample [7] [⟨1, [5]⟩])).2.chunks = [⟨1, [5]⟩] :=
  have h := Play_write_failure byteTimer brokenEncoder 2 42 [9, 9, 9] (sample [7] [⟨1, [5]⟩])
    { started := false, bytes := 0 } [] rfl (by decide) rfl rfl
  ⟨h.1, h.2.2.2.1⟩

theorem Play_loop_failingFlush {T E : Type} (enc : EncoderOps E) (now : TimePoint) :
    ∀ (fuel : Nat) (e : E) (s : SnapcastOutput T E),
      Play.loop (failingFlush enc) now fuel e s = Play.loop enc now fuel e s := by
  intro fuel
  induction fuel with
  | zero => intro e s; rfl
  | succ fuel ih =>
    intro e s
    rw [Play.loop, Play.loop]
    simp only [failingFlush, ih]
    split_ifs <;> first | rfl | exact ih _ _

theorem Play_failingFlush {T E : Type} (tm : TimerOps T) (enc : EncoderOps E) (fuel : Nat)
    (now : TimePoint) (src : Bytes) (s : SnapcastOutput T E) :
    Play tm (failingFlush enc) fuel now src s = Play tm enc fuel now src s := by
  unfold Play
  simp only [Play_loop_failingFlush]
  rfl

theorem Play_loop_unflushed {T E : Type} (enc : EncoderOps E) (now : TimePoint) :
    ∀ (fuel : Nat) (e : E) (s : SnapcastOutput T E),
      (Play.loop enc now fuel e s).2.unflushed_input ≤ s.unflushed_input := by
  intro fuel
  induction fuel with
  | zero => intro e s; simp [Play.loop]
  | succ fuel ih =>
    intro e s
    rw [Play.loop]
    by_cases hr : (enc.Read e 32768).1.isEmpty = true
    · simp [hr]
    · simp only [hr, Bool.false_eq_true, if_false]
      refine le_trans (ih _ _) ?_
      split <;> simp

theorem Play_unflushed_bound {T E : Type} (tm : TimerOps T) (enc : EncoderOps E) (fuel : Nat)
    (now : TimePoint) (src : Bytes) (s : SnapcastOutput T E)
    (hbound : s.unflushed_input < 65536) :
    (Play tm enc fuel now src s).2.unflushed_input < 65536 := by
  unfold Play
  cases ht : s.timer with
  | none => simpa using hbound
  | some t =>
    by_cases hcl : s.clients.isEmpty = true
    · simpa [LockHasClients, hcl] using hbound
    · cases he : s.encoder with
      | none => simpa [LockHasClients, hcl, he] using hbound
      | some e =>
        by_cases hw : (enc.Write e src).1 = true
        · simp only [LockHasClients, hcl, he, hw]
          simp only [Bool.not_false, Bool.not_true, Bool.false_eq_true, if_false, if_true]
          refine lt_of_le_of_lt (Play_loop_unflushed enc now fuel _ _) ?_
          by_cases hf : s.unflushed_input + src.length ≥ 65536
          · simp [hf]
          · simp only [hf, if_false]
            exact Nat.lt_of_not_ge hf
        · simpa [LockHasClients, hcl, he, hw] using hbound

theorem OnInject_loop_unflushed {T E : Type} (queue : List SnapcastChunk) (s : SnapcastOutput T E) :
    (OnInject.loop queue s).unflushed_input = s.unflushed_input := by
  induction queue generalizing s with
  | nil => rfl
  | cons chunk rest ih => rw [OnInject.loop, ih]

theorem unflushed_step {T E : Type} (d : Deps T E) (op : Op) (s s' : SnapcastOutput T E)
    (hbound : s.unflushed_input < 65536) (hstep : step d op s = some s') :
    s'.unflushed_input < 65536 := by
  cases op with
  | Bind socket_ok =>
    obtain ⟨h, _⟩ := after_some _ _ hstep
    subst h
    cases socket_ok <;> simpa [Bind] using hbound
  | Unbind =>
    obtain ⟨h, _⟩ := after_some _ _ hstep
    subst h
    unfold Unbind
    cases s.open_ <;> simpa using hbound
  | OnAccept fd =>
    simp only [step, Option.some.injEq] at hstep
    subst hstep
    unfold OnAccept
    cases s.open_ <;> simpa [AddClient] using hbound
  | Open audio_format =>
    obtain ⟨h, _⟩ := after_some _ _ hstep
    subst h
    unfold Open
    cases s.open_
    · cases s.clients.isEmpty
      · simpa using hbound
      · cases d.encoder.Open audio_format <;> simp [hbound]
    · simpa using hbound
  | Close =>
    obtain ⟨h, _⟩ := after_some _ _ hstep
    subst h
    unfold Close
    cases s.open_ <;> simpa using hbound
  | OnInject =>
    simp only [step, Option.some.injEq] at hstep
    subst hstep
    simpa [OnInject, OnInject_loop_unflushed] using hbound
  | RemoveClient client =>
    obtain ⟨h, _⟩ := after_some _ _ hstep
    subst h
    unfold RemoveClient
    split_ifs <;> simpa using hbound
  | Delay =>
    obtain ⟨h, _⟩ := after_some _ _ hstep
    subst h
    unfold Delay
    cases ht : s.timer with
    | none => simpa using hbound
    | some t => cases hp : s.pause <;> simpa using hbound
  | SendTag tag =>
    simp only [step, Option.some.injEq] at hstep
    subst hstep
    simp only [SendTag]
    split_ifs <;> exact hbound
  | Play fuel now src =>
    obtain ⟨h, _⟩ := after_some _ _ hstep
    subst h
    exact Play_unflushed_bound d.timer d.encoder fuel now src s hbound
  | Pause =>
    simp only [step, Option.some.injEq] at hstep
    subst hstep
    exact hbound
  | Cancel =>
    simp only [step, Option.some.injEq] at hstep
    subst hstep
    exact hbound

/-- C11 as stated fails: with one client, `unflushed_input` at 65535 and one
byte played, the sum reaches 65536; the encoder's `Write` throws, `Play` ends
there, and no `Flush` is called. -/
theorem Play_write_failure_skips_flush :
    (Play byteTimer brokenEncoder 2 42 [9]
      { sample [7] [] with unflushed_input := 65535 }).1 = .threw ∧
    (Play byteTimer brokenEncoder 2 42 [9]
      { sample [7] [] with unflushed_input := 65535 }).2.encoder_calls = [.Write [9]] ∧
    65535 + ([9] : Bytes).length ≥ 65536 := by
  decide

/-- C11, amended: for every `Play(src)` with at least one client on an output
with a live timer and encoder, the encoder's `Write` not failing and the reads
reaching an empty one after the non-empty reads `payloads`, with `u` the value
of `unflushed_input` on entry: the calls the encoder receives are the write,
then one `Flush` exactly when `u + src.size() >= 65536`, then the reads;
`Play` returns `src.size()`; a `Flush` that throws gives the same return value
and the same output as one that does not; on return `unflushed_input` is 0 if
the flush happened or a read was non-empty and `u + src.size()` otherwise, and
is below 65536.  Moreover `unflushed_input` is below 65536 in every state
reached from a fresh output by calls that complete. -/
theorem Play_flushes {T E : Type} (tm : TimerOps T) (enc : EncoderOps E) (now : TimePoint)
    (src : Bytes) (s : SnapcastOutput T E) (t : T) (e : E) (payloads : List Bytes) (e' : E)
    (htimer : s.timer = some t) (hclients : s.clients ≠ []) (hencoder : s.encoder = some e)
    (hwrite : (enc.Write e src).1 = true)
    (hreads : ReadsUntilEmpty enc
      (if s.unflushed_input + src.length ≥ 65536 then (enc.Flush (enc.Write e src).2).2
       else (enc.Write e src).2) payloads e')
    (fuel : Nat) (hfuel : payloads.length < fuel) :
    (Play tm enc fuel now src s).2.encoder_calls =
      s.encoder_calls ++ [EncoderCall.Write src] ++
        (if s.unflushed_input + src.length ≥ 65536 then [EncoderCall.Flush] else []) ++
        List.replicate (payloads.length + 1) (EncoderCall.Read 32768) ∧
    (Play tm enc fuel now src s).1 = .returned src.length ∧
    Play tm (failingFlush enc) fuel now src s = Play tm enc fuel now src s ∧
    (Play tm enc fuel now src s).2.unflushed_input =
      (if s.unflushed_input + src.length ≥ 65536 ∨ payloads ≠ [] then 0
       else s.unflushed_input + src.length) ∧
    (Play tm enc fuel now src s).2.unflushed_input < 65536 ∧
    (∀ (d : Deps T E) (port : Nat) (zeroconf : Bool) (ops : List Op) (s' : SnapcastOutput T E),
      run d ops (construct T E port zeroconf) = some s' → s'.unflushed_input < 65536) := by
  have hu : (Play tm enc fuel now src s).2.unflushed_input =
      (if s.unflushed_input + src.length ≥ 65536 ∨ payloads ≠ [] then 0
       else s.unflushed_input + src.length) := by
    rw [Play_with_clients tm enc now src s t e payloads e' htimer hclients hencoder hwrite hreads
      fuel hfuel]
    cases payloads with
    | nil => by_cases hf : s.unflushed_input + src.length ≥ 65536 <;> simp [hf]
    | cons p ps => simp
  refine ⟨?_, ?_, Play_failingFlush tm enc fuel now src s, hu, ?_, ?_⟩
  · rw [Play_with_clients tm enc now src s t e payloads e' htimer hclients hencoder hwrite hreads
      fuel hfuel]
  · rw [Play_with_clients tm enc now src s t e payloads e' htimer hclients hencoder hwrite hreads
      fuel hfuel]
  · rw [hu]
    split
    · decide
    · rename_i h
      exact Nat.lt_of_not_ge (fun hge => h (Or.inl hge))
  · intro d port zeroconf ops s' hrun
    exact runWith_invariant d (fun _ _ => true) (fun u => u.unflushed_input < 65536)
      (fun op u u' hb _ hs => unflushed_step d op u u' hb hs)
      ops (construct T E port zeroconf) s' (by simp [construct]) hrun

/-- C11, amended, at a concrete output: one client, `unflushed_input` at
65535, one byte played through the pass-through encoder: the flush is called
and the counter is back at zero. -/
theorem Play_flushes_witness :
    (Play byteTimer passEncoder 2 42 [9]
      { sample [7] [] with unflushed_input := 65535 }).2.encoder_calls =
      [.Write [9], .Flush, .Read 32768, .Read 32768] ∧
    (Play byteTimer passEncoder 2 42 [9]
      { sample [7] [] with unflushed_input := 65535 }).2.unflushed_input = 0 :=
  have h := Play_flushes byteTimer passEncoder 42 [9]
    { sample [7] [] with unflushed_input := 65535 }
    { started := false, bytes := 0 } [] [[9]] [] rfl (by decide) rfl rfl
    (ReadsUntilEmpty.read [9] [] [] (by decide) (ReadsUntilEmpty.stop [] rfl)) 2 (by decide)
  ⟨h.1, h.2.2.2.1⟩

end Snapcast

namespace Fs

theorem FindSlash_spec (p : List Char) :
    ∀ i, i < p.length →
      (FindSlash p i = .nullptr ∧ ∀ m, 1 ≤ m → m ≤ i → p.get? m ≠ some '/') ∨
      (∃ k, FindSlash p i = .found k ∧ 1 ≤ k ∧ k ≤ i ∧ p.get? k = some '/' ∧
        ∀ m, k < m → m ≤ i → p.get? m ≠ some '/') := by
  intro i
  induction i with
  | zero =>
    intro _
    left
    refine ⟨rfl, ?_⟩
    intro m h1 h2
    omega
  | succ i ih =>
    intro hi
    have hget : p.get? (i + 1) = some (p.get ⟨i + 1, hi⟩) := List.get?_eq_get hi
    by_cases hc : p.get ⟨i + 1, hi⟩ = '/'
    · right
      refine ⟨i + 1, ?_, by omega, le_refl _, ?_, ?_⟩
      · simp only [FindSlash, hget, hc, if_true]
      · rw [hget, hc]
      · intro m h1 h2
        omega
    · have hstep : FindSlash p (i + 1) = FindSlash p i := by
        simp only [FindSlash, hget, hc, if_false]
      rcases ih (by omega) with ⟨h0, hall⟩ | ⟨k, hk, h1, h2, h3, h4⟩
      · left
        refine ⟨by rw [hstep, h0], ?_⟩
        intro m hm1 hm2
        by_cases hm : m = i + 1
        · subst hm
          rw [hget]
          simpa using hc
        · exact hall m hm1 (by omega)
      · right
        refine ⟨k, by rw [hstep, hk], h1, by omega, h3, ?_⟩
        intro m hm1 hm2
        by_cases hm : m = i + 1
        · subst hm
          rw [hget]
          simpa using hc
        · exact h4 m hm1 (by omega)

theorem c_str_of_no_NUL (p : List Char) (hnul : NUL ∉ p) : c_str p = p := by
  unfold c_str
  rw [List.takeWhile_eq_self_iff]
  intro c hc
  have : c ≠ NUL := fun h => hnul (h ▸ hc)
  simpa using this

theorem c_str_set (p : List Char) (hnul : NUL ∉ p) (k : Nat) (hk : k < p.length) :
    c_str (p.set k NUL) = p.take k := by
  induction p generalizing k with
  | nil => simp at hk
  | cons c rest ih =>
    have hc : c ≠ NUL := fun h => hnul (by simp [h])
    have hrest : NUL ∉ rest := fun h => hnul (List.mem_cons_of_mem _ h)
    cases k with
    | zero => simp [c_str]
    | succ k =>
      have hk' : k < rest.length := by simpa using hk
      have := ih hrest k hk'
      simp only [c_str] at this ⊢
      simp [List.takeWhile_cons, hc, this]

theorem drop_set_succ (p : List Char) (k : Nat) (c : Char) :
    (p.set k c).drop (k + 1) = p.drop (k + 1) := by
  induction p generalizing k with
  | nil => simp
  | cons a rest ih =>
    cases k with
    | zero => simp
    | succ k => simpa using ih k

theorem set_set_slash (p : List Char) (k : Nat) (hslash : p.get? k = some '/') :
    (p.set k NUL).set k '/' = p := by
  induction p generalizing k with
  | nil => simp
  | cons a rest ih =>
    cases k with
    | zero =>
      simp only [List.get?_cons_zero, Option.some.injEq] at hslash
      simp [hslash]
    | succ k =>
      simp only [List.get?_cons_succ] at hslash
      simpa using ih k hslash

theorem not_mem_drop (p : List Char) (hnul : NUL ∉ p) (k : Nat) : NUL ∉ p.drop k :=
  fun h => hnul (List.mem_of_mem_drop h)

theorem loop_eq_walk_at (win32 : Bool) (fs : FileSystem) (p : List Char) (hnul : NUL ∉ p) :
    ∀ (fuel k : Nat) (log : StatLog), k < p.length → p.get? k = some '/' →
      LookupFile.loop win32 fs fuel (p.set k NUL) k (some k) log =
        LookupFile.walk win32 fs p fuel k false log := by
  intro fuel
  induction fuel with
  | zero => intro k log _ _; rfl
  | succ fuel ih =>
    intro k log hk hslash
    rw [LookupFile.loop, LookupFile.walk]
    simp only [c_str_set p hnul k hk, drop_set_succ, c_str_of_no_NUL _ (not_mem_drop p hnul (k + 1)),
      set_set_slash p k hslash, Bool.false_eq_true, if_false]
    cases hfs : fs (p.take k) with
    | regular => rfl
    | other_kind => rfl
    | failed => rfl
    | not_found =>
      simp only
      by_cases hw : (win32 && k == 0) = true
      · simp only [hw, if_true]
      · simp only [hw, if_false]
        by_cases h0 : k = 0
        · simp only [h0, if_true]
        · simp only [h0, if_false]
          rcases FindSlash_spec p (k - 1) (by omega) with ⟨hn, _⟩ | ⟨j, hj, _, hj2, hj3, _⟩
          · simp only [hn]
          · simp only [hj]
            exact ih j _ (by omega) hj3

theorem LookupFile_eq_walk (win32 : Bool) (fs : FileSystem) (p : List Char) (hnul : NUL ∉ p)
    (fuel : Nat) :
    LookupFile win32 fs fuel p = LookupFile.walk win32 fs p fuel p.length true [] := by
  unfold LookupFile
  simp only [c_str_of_no_NUL p hnul]
  cases fuel with
  | zero => rfl
  | succ fuel =>
    rw [LookupFile.loop, LookupFile.walk]
    simp only [c_str_of_no_NUL p hnul, List.take_length, if_true]
    cases hfs : fs p with
    | regular => rfl
    | other_kind => rfl
    | failed => rfl
    | not_found =>
      simp only
      by_cases hw : (win32 && p.length == 0) = true
      · simp only [hw, if_true]
      · simp only [hw, if_false]
        by_cases h0 : p.length = 0
        · simp only [h0, if_true]
        · simp only [h0, if_false]
          rcases FindSlash_spec p (p.length - 1) (by omega) with ⟨hn, _⟩ | ⟨j, hj, _, hj2, hj3, _⟩
          · simp only [hn]
          · simp only [hj]
            exact loop_eq_walk_at win32 fs p hnul fuel j _ (by omega) hj3

theorem slashesBelow_le_count (p : List Char) (idx : Nat) :
    slashesBelow p idx ≤ p.count '/' := by
  unfold slashesBelow
  exact List.Sublist.count_le (List.Sublist.trans (List.drop_sublist 1 _) (List.take_sublist idx p)) '/'

theorem slashesBelow_succ_le (p : List Char) (k idx : Nat) (h1 : 1 ≤ k) (hk : k < idx)
    (hslash : p.get? k = some '/') :
    slashesBelow p k + 1 ≤ slashesBelow p idx := by
  have hsub : List.Sublist ((p.take (k + 1)).drop 1) ((p.take idx).drop 1) :=
    List.Sublist.drop (List.take_sublist_take_left p (by omega : k + 1 ≤ idx)) 1
  have hklen : k < p.length := by
    by_contra h
    rw [List.get?_eq_none.2 (by omega)] at hslash
    exact absurd hslash (by simp)
  have hsplit : (p.take (k + 1)).drop 1 = (p.take k).drop 1 ++ ['/'] := by
    have hget : p[k]? = some '/' := by
      rw [← List.get?_eq_getElem?]
      exact hslash
    rw [List.take_succ, hget]
    simp only [Option.toList]
    rw [List.drop_append_of_le_length]
    simp only [List.length_take]
    omega
  unfold slashesBelow
  calc List.count '/' ((p.take k).drop 1) + 1
      = List.count '/' ((p.take (k + 1)).drop 1) := by
        rw [hsplit, List.count_append]
        simp
    _ ≤ List.count '/' ((p.take idx).drop 1) := List.Sublist.count_le hsub '/'

theorem walk_sound_at (win32 : Bool) (fs : FileSystem) (p : List Char) (hp : fs p = .not_found) :
    ∀ (fuel idx : Nat) (log : StatLog), 1 ≤ idx → idx < p.length → p.get? idx = some '/' →
      (∀ j, idx < j → j < p.length → p.get? j = some '/' → fs (p.take j) = .not_found) →
      ∀ archive inside,
        (LookupFile.walk win32 fs p fuel idx false log).1 = .returned (some (archive, inside)) →
        ∃ i, 1 ≤ i ∧ i < p.length ∧ p.get? i = some '/' ∧
          archive = p.take i ∧ inside = p.drop (i + 1) ∧
          fs archive = .regular ∧ fs p = .not_found ∧
          ∀ j, i < j → j < p.length → p.get? j = some '/' → fs (p.take j) = .not_found := by
  intro fuel
  induction fuel with
  | zero =>
    intro idx log _ _ _ _ archive inside h
    simp [LookupFile.walk] at h
  | succ fuel ih =>
    intro idx log h1 hlen hslash hlonger archive inside h
    rw [LookupFile.walk] at h
    cases hfs : fs (p.take idx) with
    | regular =>
      simp only [hfs, Bool.false_eq_true, if_false, Snapcast.Outcome.returned.injEq,
        Option.some.injEq, Prod.mk.injEq] at h
      obtain ⟨ha, hi⟩ := h
      exact ⟨idx, h1, hlen, hslash, ha.symm, hi.symm, by rw [← ha]; exact hfs, hp, hlonger⟩
    | other_kind => simp [hfs] at h
    | failed => simp [hfs] at h
    | not_found =>
      simp only [hfs] at h
      have h0 : idx ≠ 0 := by omega
      have hw : (win32 && idx == 0) = false := by simp [h0]
      simp only [hw, Bool.false_eq_true, if_false, h0] at h
      rcases FindSlash_spec p (idx - 1) (by omega) with ⟨hn, _⟩ | ⟨k, hk, hk1, hk2, hk3, hk4⟩
      · simp [hn] at h
      · simp only [hk] at h
        refine ih k _ hk1 (by omega) hk3 ?_ archive inside h
        intro j hj1 hj2 hj3
        by_cases hlt : j < idx
        · exact absurd hj3 (hk4 j hj1 (by omega))
        · by_cases heq : j = idx
          · rw [heq]; exact hfs
          · exact hlonger j (by omega) hj2 hj3

theorem walk_reaches (win32 : Bool) (fs : FileSystem) (p : List Char) (i : Nat) (h1 : 1 ≤ i)
    (hslash : p.get? i = some '/') (hexists : fs (p.take i) = .regular ∨ fs (p.take i) = .other_kind) :
    ∀ (fuel idx : Nat) (first : Bool) (log : StatLog), i < idx → idx ≤ p.length →
      fs (p.take idx) = .not_found →
      (∀ j, i < j → j < idx → p.get? j = some '/' → fs (p.take j) = .not_found) →
      slashesBelow p idx < fuel →
      (LookupFile.walk win32 fs p fuel idx first log).1 =
        .returned (if fs (p.take i) = .regular then some (p.take i, p.drop (i + 1)) else none) := by
  intro fuel
  induction fuel with
  | zero =>
    intro idx first log _ _ _ _ hfuel
    omega
  | succ fuel ih =>
    intro idx first log hi hlen hnf hbetween hfuel
    have hcount := slashesBelow_succ_le p i idx h1 hi hslash
    rw [LookupFile.walk]
    simp only [hnf]
    have h0 : idx ≠ 0 := by omega
    have hw : (win32 && idx == 0) = false := by simp [h0]
    simp only [hw, Bool.false_eq_true, if_false, h0]
    rcases FindSlash_spec p (idx - 1) (by omega) with ⟨_, hall⟩ | ⟨k, hk, hk1, hk2, hk3, hk4⟩
    · exact absurd hslash (hall i h1 (by omega))
    · simp only [hk]
      have hik : i ≤ k := by
        by_contra hlt
        exact absurd hslash (hk4 i (by omega) (by omega))
      by_cases heq : k = i
      · subst heq
        cases fuel with
        | zero => omega
        | succ fuel =>
          rw [LookupFile.walk]
          rcases hexists with hr | ho
          · simp [hr]
          · simp [ho]
      · have hkcount := slashesBelow_succ_le p k idx hk1 (by omega) hk3
        exact ih k false _ (by omega) (by omega) (hbetween k (by omega) (by omega) hk3)
          (fun j hj1 hj2 hj3 => hbetween j hj1 (by omega) hj3) (by omega)

theorem take_slash_drop (p : List Char) (i : Nat) (hslash : p.get? i = some '/') :
    p.take i ++ '/' :: p.drop (i + 1) = p := by
  have hlen : i < p.length := by
    by_contra h
    rw [List.get?_eq_none.2 (by omega)] at hslash
    exact absurd hslash (by simp)
  have hget : p[i] = '/' := by
    have : p.get? i = some p[i] := List.get?_eq_get hlen
    rw [this] at hslash
    exact Option.some.inj hslash
  calc p.take i ++ '/' :: p.drop (i + 1)
      = p.take i ++ p.drop i := by rw [List.drop_eq_getElem_cons hlen, hget]
    _ = p := List.take_append_drop i p

theorem walk_first_found (win32 : Bool) (fs : FileSystem) (p : List Char) (fuel : Nat)
    (hexists : fs p = .regular ∨ fs p = .other_kind) (hfuel : 0 < fuel) :
    (LookupFile.walk win32 fs p fuel p.length true []).1 = .returned none := by
  cases fuel with
  | zero => omega
  | succ fuel =>
    rw [LookupFile.walk]
    simp only [List.take_length]
    rcases hexists with h | h <;> simp [h]

theorem walk_sound (win32 : Bool) (fs : FileSystem) (p : List Char) (fuel : Nat)
    (archive inside : List Char)
    (h : (LookupFile.walk win32 fs p fuel p.length true []).1 = .returned (some (archive, inside))) :
    ∃ i, 1 ≤ i ∧ i < p.length ∧ p.get? i = some '/' ∧
      archive = p.take i ∧ inside = p.drop (i + 1) ∧
      fs archive = .regular ∧ fs p = .not_found ∧
      ∀ j, i < j → j < p.length → p.get? j = some '/' → fs (p.take j) = .not_found := by
  cases fuel with
  | zero => simp [LookupFile.walk] at h
  | succ fuel =>
    rw [LookupFile.walk] at h
    simp only [List.take_length] at h
    cases hfs : fs p with
    | regular => simp [hfs] at h
    | other_kind => simp [hfs] at h
    | failed => simp [hfs] at h
    | not_found =>
      simp only [hfs] at h
      by_cases hw : (win32 && p.length == 0) = true
      · simp [hw] at h
      · simp only [hw, Bool.false_eq_true, if_false] at h
        by_cases h0 : p.length = 0
        · simp [h0] at h
        · simp only [h0, if_false] at h
          rcases FindSlash_spec p (p.length - 1) (by omega) with ⟨hn, _⟩ | ⟨k, hk, hk1, hk2, hk3, hk4⟩
          · simp [hn] at h
          · simp only [hk] at h
            obtain ⟨i, a1, a2, a3, a4, a5, a6, _, a8⟩ :=
              walk_sound_at win32 fs p hfs fuel k _ hk1 (by omega) hk3
                (fun j hj1 hj2 hj3 => absurd hj3 (hk4 j hj1 (by omega))) archive inside h
            exact ⟨i, a1, a2, a3, a4, a5, a6, rfl, a8⟩

/-- C12: for every pathname (a C string, so without `NUL`) and every file
system state: whenever `LookupFile` returns a non-empty result `(archive,
inside)`, there is an index `i >= 1` with `pathname[i] = '/'`, `archive` the
characters before it and `inside` the characters after it, so that `archive`,
`/`, `inside` together are the pathname; `archive` is a regular file; and the
pathname itself and every prefix ending just before a `/` at a greater index
were not found.  If the pathname itself exists, the result is empty; if the
pathname does not exist and the longest prefix ending before a `/` (not at
index 0) that exists is not a regular file, then followed for at least (number
of `/`) + 1 iterations the result is empty, and if it is a regular file the
result is that prefix and the rest. -/
theorem LookupFile_split (win32 : Bool) (fs : FileSystem) (fuel : Nat) (pathname : List Char)
    (hnul : NUL ∉ pathname) :
    (∀ archive inside,
      (LookupFile win32 fs fuel pathname).1 = .returned (some (archive, inside)) →
      ∃ i, 1 ≤ i ∧ i < pathname.length ∧ pathname.get? i = some '/' ∧
        archive = pathname.take i ∧ inside = pathname.drop (i + 1) ∧
        archive ++ '/' :: inside = pathname ∧
        fs archive = .regular ∧ fs pathname = .not_found ∧
        ∀ j, i < j → j < pathname.length → pathname.get? j = some '/' →
          fs (pathname.take j) = .not_found) ∧
    ((fs pathname = .regular ∨ fs pathname = .other_kind) → 0 < fuel →
      (LookupFile win32 fs fuel pathname).1 = .returned none) ∧
    (∀ i, 1 ≤ i → i < pathname.length → pathname.get? i = some '/' →
      fs pathname = .not_found →
      (∀ j, i < j → j < pathname.length → pathname.get? j = some '/' →
        fs (pathname.take j) = .not_found) →
      pathname.count '/' + 1 ≤ fuel →
      (fs (pathname.take i) = .other_kind →
        (LookupFile win32 fs fuel pathname).1 = .returned none) ∧
      (fs (pathname.take i) = .regular →
        (LookupFile win32 fs fuel pathname).1 =
          .returned (some (pathname.take i, pathname.drop (i + 1))))) := by
  rw [LookupFile_eq_walk win32 fs pathname hnul fuel]
  refine ⟨?_, ?_, ?_⟩
  · intro archive inside h
    obtain ⟨i, h1, h2, h3, h4, h5, h6, h7, h8⟩ := walk_sound win32 fs pathname fuel archive inside h
    refine ⟨i, h1, h2, h3, h4, h5, ?_, h6, h7, h8⟩
    rw [h4, h5]
    exact take_slash_drop pathname i h3
  · intro hexists hfuel
    exact walk_first_found win32 fs pathname fuel hexists hfuel
  · intro i h1 hlen hslash hnf hlonger hfuel
    have hcount := slashesBelow_le_count pathname pathname.length
    have hnf' : fs (pathname.take pathname.length) = .not_found := by
      rw [List.take_length]; exact hnf
    constructor
    · intro ho
      have := walk_reaches win32 fs pathname i h1 hslash (Or.inr ho) fuel pathname.length true []
        hlen (le_refl _) hnf' (fun j hj1 hj2 hj3 => hlonger j hj1 hj2 hj3) (by omega)
      rw [this, ho]
      simp
    · intro hr
      have := walk_reaches win32 fs pathname i h1 hslash (Or.inl hr) fuel pathname.length true []
        hlen (le_refl _) hnf' (fun j hj1 hj2 hj3 => hlonger j hj1 hj2 hj3) (by omega)
      rw [this, hr]
      simp

/-- C12 at a concrete input: the regular file `/music/a.zip` and a path into
it. -/
theorem LookupFile_split_witness :
    NUL ∉ "/music/a.zip/dir/x.mp3".data ∧
    (LookupFile false demoFs 10 "/music/a.zip/dir/x.mp3".data).1 =
      .returned (some ("/music/a.zip".data, "dir/x.mp3".data)) ∧
    ∃ i, 1 ≤ i ∧ i < "/music/a.zip/dir/x.mp3".data.length ∧
      "/music/a.zip/dir/x.mp3".data.get? i = some '/' ∧
      "/music/a.zip".data = "/music/a.zip/dir/x.mp3".data.take i ∧
      "dir/x.mp3".data = "/music/a.zip/dir/x.mp3".data.drop (i + 1) ∧
      "/music/a.zip".data ++ '/' :: "dir/x.mp3".data = "/music/a.zip/dir/x.mp3".data ∧
      demoFs "/music/a.zip".data = .regular ∧
      demoFs "/music/a.zip/dir/x.mp3".data = .not_found ∧
      ∀ j, i < j → j < "/music/a.zip/dir/x.mp3".data.length →
        "/music/a.zip/dir/x.mp3".data.get? j = some '/' →
        demoFs ("/music/a.zip/dir/x.mp3".data.take j) = .not_found :=
  ⟨by decide, by decide,
    (LookupFile_split false demoFs 10 "/music/a.zip/dir/x.mp3".data (by decide)).1
      "/music/a.zip".data "dir/x.mp3".data (by decide)⟩

theorem FindSlash_never_zero (p : List Char) : ∀ i, FindSlash p i ≠ .found 0 := by
  intro i
  induction i with
  | zero => simp [FindSlash]
  | succ i ih =>
    rw [FindSlash]
    split
    · simp
    · split
      · simp
      · exact ih

theorem walk_terminates (win32 : Bool) (fs : FileSystem) (p : List Char)
    (hfs : ∀ q, fs q ≠ .failed) :
    ∀ (fuel idx : Nat) (first : Bool) (log : StatLog), 1 ≤ idx → idx ≤ p.length →
      slashesBelow p idx < fuel →
      (∃ result, (LookupFile.walk win32 fs p fuel idx first log).1 = .returned result) ∧
      ∃ calls, (LookupFile.walk win32 fs p fuel idx first log).2 = log ++ calls ∧
        calls.length ≤ slashesBelow p idx + 1 ∧
        (∀ x ∈ calls, 1 ≤ x.1 ∧ x.1 ≤ idx) ∧
        (calls.map Prod.fst).Pairwise (fun a b => b < a) := by
  intro fuel
  induction fuel with
  | zero => intro idx first log _ _ h; omega
  | succ fuel ih =>
    intro idx first log h1 hlen hfuel
    have h0 : idx ≠ 0 := by omega
    have hw : (win32 && idx == 0) = false := by simp [h0]
    have hone : ∀ o : Snapcast.Outcome ArchiveLookupResult, (∃ result, o = .returned result) →
        (∃ result, (o, log ++ [(idx, p.take idx)]).1 = .returned result) ∧
        ∃ calls, (o, log ++ [(idx, p.take idx)]).2 = log ++ calls ∧
          calls.length ≤ slashesBelow p idx + 1 ∧
          (∀ x ∈ calls, 1 ≤ x.1 ∧ x.1 ≤ idx) ∧
          (calls.map Prod.fst).Pairwise (fun a b => b < a) := by
      intro o ho
      refine ⟨ho, [(idx, p.take idx)], rfl, by simp, ?_, by simp⟩
      intro x hx
      simp only [List.mem_singleton] at hx
      subst hx
      exact ⟨h1, le_refl _⟩
    rw [LookupFile.walk]
    cases hstat : fs (p.take idx) with
    | regular =>
      simp only
      split
      · exact hone _ ⟨_, rfl⟩
      · exact hone _ ⟨_, rfl⟩
    | other_kind => exact hone _ ⟨_, rfl⟩
    | failed => exact absurd hstat (hfs _)
    | not_found =>
      simp only [hw, Bool.false_eq_true, if_false, h0]
      rcases FindSlash_spec p (idx - 1) (by omega) with ⟨hn, _⟩ | ⟨k, hk, hk1, hk2, hk3, _⟩
      · simp only [hn]
        exact hone _ ⟨_, rfl⟩
      · simp only [hk]
        have hcount := slashesBelow_succ_le p k idx hk1 (by omega) hk3
        obtain ⟨hres, calls, hlog, hlen', hall, hpair⟩ :=
          ih k false (log ++ [(idx, p.take idx)]) hk1 (by omega) (by omega)
        refine ⟨hres, (idx, p.take idx) :: calls, ?_, ?_, ?_, ?_⟩
        · rw [hlog]; simp
        · simp only [List.length_cons]; omega
        · intro x hx
          rcases List.mem_cons.1 hx with hx | hx
          · subst hx
            exact ⟨h1, le_refl _⟩
          · exact ⟨(hall x hx).1, by have := (hall x hx).2; omega⟩
        · simp only [List.map_cons, List.pairwise_cons]
          refine ⟨?_, hpair⟩
          intro b hb
          obtain ⟨x, hx, rfl⟩ := List.mem_map.1 hb
          have := (hall x hx).2
          omega

theorem FindSlash_in_bounds (p : List Char) (i : Nat) (hi : i < p.length) :
    FindSlash p i ≠ .out_of_bounds := by
  rcases FindSlash_spec p i hi with ⟨h, _⟩ | ⟨k, h, _⟩ <;> rw [h] <;> simp

/-- C13: for every non-empty pathname (a C string, so without `NUL`) and
every file system state in which `stat` fails only with path-not-found,
`LookupFile` followed for at least (number of `/` in the pathname) + 1
iterations returns: no assertion fails and no read of `FindSlash` is outside
the buffer.  It makes at most (number of `/`) + 1 `stat` calls; `idx` is at
least 1 at each of them, hence at each assertion reached, and strictly
decreases from one call to the next.  `FindSlash` reads inside the buffer for
every start index below the length and never returns index 0.  For the empty
pathname with `stat` reporting not-found, the one iteration has `idx = 0` and
ends at the assertion (on Windows, at the `throw` before it). -/
theorem LookupFile_terminates (win32 : Bool) (fs : FileSystem) (fuel : Nat)
    (pathname : List Char) (hne : pathname ≠ []) (hnul : NUL ∉ pathname)
    (hfs : ∀ q, fs q ≠ .failed) (hfuel : pathname.count '/' + 1 ≤ fuel) :
    (∃ result, (LookupFile win32 fs fuel pathname).1 = .returned result) ∧
    (LookupFile win32 fs fuel pathname).2.length ≤ pathname.count '/' + 1 ∧
    (∀ x ∈ (LookupFile win32 fs fuel pathname).2, 1 ≤ x.1) ∧
    ((LookupFile win32 fs fuel pathname).2.map Prod.fst).Pairwise (fun a b => b < a) ∧
    (∀ i, i < pathname.length → FindSlash pathname i ≠ .out_of_bounds) ∧
    (∀ (p : List Char) i, FindSlash p i ≠ .found 0) ∧
    (∀ fs0 : FileSystem, fs0 [] = .not_found → 0 < fuel →
      LookupFile false fs0 fuel [] = (.assertion_failed, [(0, [])]) ∧
      LookupFile true fs0 fuel [] = (.threw, [(0, [])])) := by
  have hlen : 1 ≤ pathname.length := by
    cases pathname with
    | nil => exact absurd rfl hne
    | cons _ _ => simp
  have hcount := slashesBelow_le_count pathname pathname.length
  obtain ⟨hres, calls, hlog, hcalls, hall, hpair⟩ :=
    walk_terminates win32 fs pathname hfs fuel pathname.length true [] hlen (le_refl _) (by omega)
  rw [LookupFile_eq_walk win32 fs pathname hnul fuel]
  simp only [List.nil_append] at hlog
  refine ⟨hres, ?_, ?_, ?_, fun i hi => FindSlash_in_bounds pathname i hi,
    fun p i => FindSlash_never_zero p i, ?_⟩
  · rw [hlog]; omega
  · rw [hlog]; exact fun x hx => (hall x hx).1
  · rw [hlog]; exact hpair
  · intro fs0 h0 hpos
    cases fuel with
    | zero => omega
    | succ fuel =>
      constructor
      · simp [LookupFile, c_str, LookupFile.loop, h0]
      · simp [LookupFile, c_str, LookupFile.loop, h0]

/-- C13 at a concrete input: the path `x/y/` with two slashes, nothing of
which exists: three `stat` calls, at `idx` 4, 3 and 1. -/
theorem LookupFile_terminates_witness :
    LookupFile false demoFs 3 "x/y/".data =
      (.returned none, [(4, "x/y/".data), (3, "x/y".data), (1, "x".data)]) ∧
    (LookupFile false demoFs 3 "x/y/".data).2.length ≤ "x/y/".data.count '/' + 1 :=
  ⟨by decide,
    (LookupFile_terminates false demoFs 3 "x/y/".data (by decide) (by decide)
      (fun q => by unfold demoFs; split_ifs <;> simp) (by decide)).2.1⟩

end Fs

namespace Db

theorem UpdateOrInsert_nil (pi : PlaylistInfo) :
    PlaylistVector.UpdateOrInsert true [] pi = .returned (true, [{ pi with mark := true }]) := by
  simp [PlaylistVector.UpdateOrInsert, PlaylistVector.find, PlaylistVector.findIndex]

theorem UpdateOrInsert_cons_hit (entry : PlaylistInfo) (rest : PlaylistVector) (pi : PlaylistInfo)
    (h : entry.name = pi.name) :
    PlaylistVector.UpdateOrInsert true (entry :: rest) pi =
      .returned (decide (pi.mtime ≠ entry.mtime),
        { entry with mark := true, mtime := pi.mtime } :: rest) := by
  by_cases hm : pi.mtime = entry.mtime
  · simp [PlaylistVector.UpdateOrInsert, PlaylistVector.find, PlaylistVector.findIndex, h, hm]
  · simp [PlaylistVector.UpdateOrInsert, PlaylistVector.find, PlaylistVector.findIndex, h, hm]

theorem UpdateOrInsert_cons_miss (entry : PlaylistInfo) (rest : PlaylistVector) (pi : PlaylistInfo)
    (h : entry.name ≠ pi.name) :
    ∃ b rest', PlaylistVector.UpdateOrInsert true rest pi = .returned (b, rest') ∧
      PlaylistVector.UpdateOrInsert true (entry :: rest) pi = .returned (b, entry :: rest') := by
  simp only [PlaylistVector.UpdateOrInsert, PlaylistVector.find, PlaylistVector.findIndex, h,
    Bool.not_true, Bool.false_eq_true, if_false, List.get?_cons_succ]
  cases hg : rest.get? (PlaylistVector.findIndex rest pi.name) with
  | none => exact ⟨_, _, rfl, by simp⟩
  | some e =>
    simp only
    by_cases hm : pi.mtime = e.mtime
    · simp only [hm, if_true]
      exact ⟨_, _, rfl, by simp⟩
    · simp only [hm, if_false]
      exact ⟨_, _, rfl, by simp⟩

/-- C14: for every vector `v` and entry `pi` (the database lock held),
`UpdateOrInsert(pi)` returns; it returns false exactly when the first entry of
`v` named `pi.name` exists and has `mtime` equal to `pi.mtime`; afterwards the
first entry named `pi.name` has `mark = true` and `mtime = pi.mtime`; when no
entry had that name the vector is `v` with `pi`, marked, appended at the end,
and otherwise the length and all names are unchanged, so the length grows by
one exactly when no entry had that name; every entry at an index other than
the one found is untouched; and pairwise distinct names stay pairwise
distinct. -/
theorem UpdateOrInsert_spec (v : PlaylistVector) (pi : PlaylistInfo) :
    ∃ b v', PlaylistVector.UpdateOrInsert true v pi = .returned (b, v') ∧
      (b = false ↔ ∃ e, v.first pi.name = some e ∧ e.mtime = pi.mtime) ∧
      (∃ e', v'.first pi.name = some e' ∧ e'.mark = true ∧ e'.mtime = pi.mtime) ∧
      ((∀ e ∈ v, e.name ≠ pi.name) → v' = v ++ [{ pi with mark := true }]) ∧
      ((∃ e ∈ v, e.name = pi.name) →
        v'.length = v.length ∧ v'.map (fun e => e.name) = v.map (fun e => e.name)) ∧
      (v'.length = v.length + 1 ↔ ∀ e ∈ v, e.name ≠ pi.name) ∧
      (∀ j, j < v.length → j ≠ v.findIndex pi.name → v'.get? j = v.get? j) ∧
      ((v.map (fun e => e.name)).Nodup → (v'.map (fun e => e.name)).Nodup) := by
  induction v with
  | nil =>
    refine ⟨true, [{ pi with mark := true }], UpdateOrInsert_nil pi, ?_, ?_, ?_, ?_, ?_, ?_, ?_⟩
    · simp [PlaylistVector.first]
    · exact ⟨{ pi with mark := true }, by simp [PlaylistVector.first], rfl, rfl⟩
    · intro _; rfl
    · rintro ⟨e, he, _⟩; simp at he
    · simp
    · intro j hj; simp at hj
    · intro _; simp
  | cons entry rest ih =>
    by_cases h : entry.name = pi.name
    · refine ⟨decide (pi.mtime ≠ entry.mtime), { entry with mark := true, mtime := pi.mtime } :: rest,
        UpdateOrInsert_cons_hit entry rest pi h, ?_, ?_, ?_, ?_, ?_, ?_, ?_⟩
      · simp only [PlaylistVector.first, List.find?_cons, h, beq_self_eq_true, Option.some.injEq,
          exists_eq_left', decide_eq_false_iff_not, ne_eq, not_not]
        exact eq_comm
      · exact ⟨{ entry with mark := true, mtime := pi.mtime },
          by simp [PlaylistVector.first, h], rfl, rfl⟩
      · intro hall
        exact absurd h (hall entry (List.mem_cons_self _ _))
      · intro _
        simp
      · constructor
        · intro hlen; simp at hlen
        · intro hall
          exact absurd h (hall entry (List.mem_cons_self _ _))
      · intro j hj hne
        cases j with
        | zero => simp [PlaylistVector.findIndex, h] at hne
        | succ j => simp
      · intro hnodup
        simpa using hnodup
    · obtain ⟨b, rest', hrest, hret, hfirst, happend, hsame, hlen, hother, hnodup⟩ := ih
      obtain ⟨b2, rest2, hrest2, hcons⟩ := UpdateOrInsert_cons_miss entry rest pi h
      rw [hrest] at hrest2
      simp only [Snapcast.Outcome.returned.injEq, Prod.mk.injEq] at hrest2
      obtain ⟨hb, hr⟩ := hrest2
      subst hb hr
      have hbeq : (entry.name == pi.name) = false := by simpa using h
      refine ⟨b, entry :: rest', hcons, ?_, ?_, ?_, ?_, ?_, ?_, ?_⟩
      · simpa [PlaylistVector.first, List.find?_cons, hbeq] using hret
      · simpa [PlaylistVector.first, List.find?_cons, hbeq] using hfirst
      · intro hall
        rw [happend (fun e he => hall e (List.mem_cons_of_mem _ he))]
        rfl
      · rintro ⟨e, he, hname⟩
        rcases List.mem_cons.1 he with he | he
        · subst he; exact absurd hname h
        · obtain ⟨h1, h2⟩ := hsame ⟨e, he, hname⟩
          simp [h1, h2]
      · constructor
        · intro hl e he
          rcases List.mem_cons.1 he with he | he
          · subst he; exact h
          · exact hlen.1 (by simpa using hl) e he
        · intro hall
          have := hlen.2 (fun e he => hall e (List.mem_cons_of_mem _ he))
          simp [this]
      · intro j hj hne
        cases j with
        | zero => simp
        | succ j =>
          simp only [List.get?_cons_succ]
          apply hother j (by simpa using hj)
          intro heq
          apply hne
          simp [PlaylistVector.findIndex, h, heq]
      · intro hnd
        simp only [List.map_cons, List.nodup_cons] at hnd ⊢
        obtain ⟨hnotin, hnd'⟩ := hnd
        refine ⟨?_, hnodup hnd'⟩
        by_cases hex : ∃ e ∈ rest, e.name = pi.name
        · rw [(hsame hex).2]; exact hnotin
        · have hall : ∀ e ∈ rest, e.name ≠ pi.name := fun e he hn => hex ⟨e, he, hn⟩
          rw [happend hall]
          simp only [List.map_append, List.map_cons, List.map_nil, List.mem_append,
            List.mem_singleton, not_or]
          exact ⟨hnotin, h⟩

/-- C14 at a concrete vector: the entry `jazz` gets a new `mtime`; the names
are distinct before and after. -/
theorem UpdateOrInsert_spec_witness :
    PlaylistVector.UpdateOrInsert true twoLists { name := "jazz", mtime := 25, mark := false } =
      .returned (true, [{ name := "rock", mtime := 10, mark := false },
        { name := "jazz", mtime := 25, mark := true }]) ∧
    ∃ b v', PlaylistVector.UpdateOrInsert true twoLists
        { name := "jazz", mtime := 25, mark := false } = .returned (b, v') ∧
      v'.length = twoLists.length ∧ (v'.map (fun e => e.name)).Nodup :=
  ⟨by decide,
    (UpdateOrInsert_spec twoLists { name := "jazz", mtime := 25, mark := false }).elim
      fun b h => h.elim fun v' h =>
        ⟨b, v', h.1, (h.2.2.2.2.1 ⟨{ name := "jazz", mtime := 20, mark := false },
          by decide, rfl⟩).1, h.2.2.2.2.2.2.2 (by decide)⟩⟩

end Db
